import Mathlib

set_option maxRecDepth 40000

/-!
Verification of the `wordgraph6` DAWG builder (file `wordgraph6.go`).

The development is a shallow embedding of the Go source:

* The trie-building phase (`NewDAWG`, `Put`, `put`, `computeLevels`,
  `computeHeights`, `computeHashes`) operates on a genuine tree
  (before minimization every non-root node has exactly one parent),
  so it is embedded as an inductive tree type `TN` whose constructors
  carry exactly the fields of the Go `treenode` struct; `nil` models
  the null pointer, and the `parents` back-pointer slice is modelled
  as the list of parent node ids.
* The minimization and flattening phases (`Optimise`'s merge loop,
  `processLevel`, `redirect`, `Flatten`, `addNodesOfLevelX`,
  `writeToFile`) mutate a pointer graph with sharing, so they are
  embedded as functions on an explicit store (`Store`): a list of
  node records addressed by the node's `id` field, with `children` /
  `next` pointers represented as `Option Int` ids.  Recursive pointer
  traversals take an explicit fuel argument.  Go's `panic` (in
  `redirect`) is modelled by `Option`.
* Go runes are modelled as `Nat` code points; machine integers do not
  overflow in any reachable computation, arithmetic that Go performs
  on 32-bit words (inside SHA-1) is performed modulo `2 ^ 32`.
* The iteration order of a Go `map` (`for key := range m`) is not
  deterministic; the merge loop's use of it is modelled by an explicit
  reordering parameter applied to the collected key list.
-/

namespace Wordgraph6

/-- A Go `rune` (Unicode code point), as a natural number. -/
abbrev Rune := Nat

/-! ## SHA-1 (`crypto/sha1`), over byte lists

`computeHashes` calls `sha1.Sum`; we embed the SHA-1 digest function
over `List Nat` byte sequences, with 32-bit words as `Nat` reduced
modulo `2 ^ 32`. -/

/-- Truncate to a 32-bit word. -/
def u32 (n : Nat) : Nat := n % 4294967296

/-- Rotate a 32-bit word left by `n` bits. -/
def rotl (n x : Nat) : Nat := u32 ((x <<< n) ||| (x >>> (32 - n)))

/-- The SHA-1 round function for round `t`. -/
def shaF (t b c d : Nat) : Nat :=
  if t < 20 then (b &&& c) ||| ((4294967295 ^^^ b) &&& d)
  else if t < 40 then b ^^^ c ^^^ d
  else if t < 60 then (b &&& c) ||| (b &&& d) ||| (c &&& d)
  else b ^^^ c ^^^ d

/-- The SHA-1 round constant for round `t`. -/
def shaK (t : Nat) : Nat :=
  if t < 20 then 0x5A827999
  else if t < 40 then 0x6ED9EBA1
  else if t < 60 then 0x8F1BBCDC
  else 0xCA62C1D6

/-- Big-endian 4-byte encoding of a 32-bit word. -/
def be32 (n : Nat) : List Nat :=
  [n / 16777216 % 256, n / 65536 % 256, n / 256 % 256, n % 256]

/-- Big-endian 8-byte encoding of a 64-bit value. -/
def be64 (n : Nat) : List Nat :=
  [n / 72057594037927936 % 256, n / 281474976710656 % 256,
   n / 1099511627776 % 256, n / 4294967296 % 256,
   n / 16777216 % 256, n / 65536 % 256, n / 256 % 256, n % 256]

/-- Group a byte list into big-endian 32-bit words (drops a trailing
incomplete group; padded messages have none). -/
def bytesToWords : List Nat → List Nat
  | b0 :: b1 :: b2 :: b3 :: rest =>
      (b0 * 16777216 + b1 * 65536 + b2 * 256 + b3) :: bytesToWords rest
  | _ => []

/-- SHA-1 message padding: append `0x80`, zeros, and the 64-bit
big-endian bit length, up to a multiple of 64 bytes. -/
def padMsg (m : List Nat) : List Nat :=
  let l := m.length
  m ++ [0x80] ++ List.replicate ((64 - ((l + 9) % 64)) % 64) 0 ++ be64 (8 * l)

/-- Extend the 16 message words of a block to the 80-word schedule. -/
def schedule (ws : List Nat) : List Nat :=
  (List.range 64).foldl
    (fun acc _ =>
      acc ++ [rotl 1 ((acc.getD (acc.length - 3) 0) ^^^ (acc.getD (acc.length - 8) 0)
        ^^^ (acc.getD (acc.length - 14) 0) ^^^ (acc.getD (acc.length - 16) 0))])
    ws

/-- The 80 SHA-1 rounds on one block. -/
def shaRounds (ws : List Nat) (h : Nat × Nat × Nat × Nat × Nat) :
    Nat × Nat × Nat × Nat × Nat :=
  (List.range 80).foldl
    (fun st t =>
      match st with
      | (a, b, c, d, e) =>
          (u32 (rotl 5 a + shaF t b c d + e + shaK t + ws.getD t 0),
           a, rotl 30 b, c, d))
    h

/-- Absorb one 64-byte block into the running state. -/
def processBlock (h : Nat × Nat × Nat × Nat × Nat) (block : List Nat) :
    Nat × Nat × Nat × Nat × Nat :=
  match h, shaRounds (schedule (bytesToWords block)) h with
  | (h0, h1, h2, h3, h4), (a, b, c, d, e) =>
      (u32 (h0 + a), u32 (h1 + b), u32 (h2 + c), u32 (h3 + d), u32 (h4 + e))

/-- Split a byte list into 64-byte blocks (`fuel` bounds the number of
blocks; each step consumes at least one byte, so `l.length` is always
enough). -/
def blocksF : Nat → List Nat → List (List Nat)
  | 0, _ => []
  | _ + 1, [] => []
  | fuel + 1, x :: xs => ((x :: xs).take 64) :: blocksF fuel ((x :: xs).drop 64)

/-- Split a byte list into 64-byte blocks. -/
def blocks (l : List Nat) : List (List Nat) := blocksF l.length l

/-- SHA-1 digest of a byte sequence (`sha1.Sum`), as 20 bytes. -/
def sha1 (m : List Nat) : List Nat :=
  match (blocks (padMsg m)).foldl processBlock
      (0x67452301, 0xEFCDAB89, 0x98BADCFE, 0x10325476, 0xC3D2E1F0) with
  | (h0, h1, h2, h3, h4) => be32 h0 ++ be32 h1 ++ be32 h2 ++ be32 h3 ++ be32 h4

/-- The zero value of Go's `[20]byte` (a `treenode`'s `hash` before
`computeHashes` runs). -/
def zeroHash : List Nat := List.replicate 20 0

/-- UTF-8 encoding of a code point, as Go's `[]byte(string(r))`:
surrogates and out-of-range values encode as U+FFFD. -/
def utf8Encode (c : Rune) : List Nat :=
  if c < 0x80 then [c]
  else if c < 0x800 then [0xC0 ||| (c >>> 6), 0x80 ||| (c &&& 0x3F)]
  else if 0xD800 ≤ c ∧ c ≤ 0xDFFF then [0xEF, 0xBF, 0xBD]
  else if c < 0x10000 then
    [0xE0 ||| (c >>> 12), 0x80 ||| ((c >>> 6) &&& 0x3F), 0x80 ||| (c &&& 0x3F)]
  else if c ≤ 0x10FFFF then
    [0xF0 ||| (c >>> 18), 0x80 ||| ((c >>> 12) &&& 0x3F),
     0x80 ||| ((c >>> 6) &&& 0x3F), 0x80 ||| (c &&& 0x3F)]
  else [0xEF, 0xBF, 0xBD]

/-! ## The `treenode` struct, tree phase

`TN.nil` is the null `*treenode`; `TN.node` carries the struct fields
`id`, `val`, `endofword`, `firstchild`, `level`, `height`, `hash`,
`parents` (as parent ids), `children`, `next`. -/

/-- A `*treenode` in the tree-shaped phase of the pipeline. -/
inductive TN where
  | nil : TN
  | node (id : Int) (val : Rune) (endofword firstchild : Bool) (level : Int)
      (height : Int) (hash : List Nat) (parents : List Int)
      (children next : TN) : TN
deriving DecidableEq, Repr

namespace TN

/-- `NewDAWG`: the sentinel root (`id = -1`, `level = -1`, `val = '∅'`,
all other fields Go zero values). -/
def NewDAWG : TN :=
  .node (-1) 8709 false false (-1) 0 zeroHash [] .nil .nil

/-- The `children` field of a node (`nil` pointer for `TN.nil`). -/
def childrenOf : TN → TN
  | .nil => .nil
  | .node _ _ _ _ _ _ _ _ ch _ => ch

/-- The `next` field of a node. -/
def nextOf : TN → TN
  | .nil => .nil
  | .node _ _ _ _ _ _ _ _ _ nx => nx

/-- The `val` field of a node (0 for `TN.nil`). -/
def valOf : TN → Rune
  | .nil => 0
  | .node _ v _ _ _ _ _ _ _ _ => v

/-- The `hash` field of a node. -/
def hashOf : TN → List Nat
  | .nil => zeroHash
  | .node _ _ _ _ _ _ hs _ _ _ => hs

/-- The `id` field of a node. -/
def idOf : TN → Int
  | .nil => 0
  | .node i _ _ _ _ _ _ _ _ _ => i

/-- The `height` field of a node. -/
def heightOf : TN → Int
  | .nil => 0
  | .node _ _ _ _ _ h _ _ _ _ => h

/-- The `level` field of a node. -/
def levelOf : TN → Int
  | .nil => 0
  | .node _ _ _ _ lv _ _ _ _ _ => lv

end TN

/-- `utf8.DecodeRuneInString` followed by `s = s[size:]`, on a word
already split into code points: the first code point and the rest;
on the empty string it yields `(RuneError, "")` (`size = 0`). -/
def decodeRune : List Rune → Rune × List Rune
  | [] => (0xFFFD, [])
  | c :: cs => (c, cs)

namespace TN

/-- The sibling-chain scan loop shared by `Put` and `put`
(`for child = t.children; child.next != nil; child = child.next` plus
the check of the last child): `pc` is the recursive call
`child.put(s, id)` at the already-shortened suffix, `c` is `fchar`,
and the chain is the receiver's `children` chain.  On a match the
matched sibling is replaced by `pc` of it; if the scan exhausts the
chain, a fresh sibling (not first-child, no parent back-reference) is
appended at the tail. -/
def putScanWith (pc : TN → Int → TN × Int) (c : Rune) : TN → Int → TN × Int
  | .nil, id => (.nil, id)
  | .node i v eo fc lv h hs ps ch .nil, id =>
      if v = c then
        pc (.node i v eo fc lv h hs ps ch .nil) id
      else
        let nc0 : TN := .node id c false false (-1) 0 zeroHash [] .nil .nil
        let r := pc nc0 (id + 1)
        (.node i v eo fc lv h hs ps ch r.1, r.2)
  | .node i v eo fc lv h hs ps ch (.node j w eo2 fc2 lv2 h2 hs2 ps2 ch2 nx2), id =>
      if v = c then
        pc (.node i v eo fc lv h hs ps ch (.node j w eo2 fc2 lv2 h2 hs2 ps2 ch2 nx2)) id
      else
        let r := putScanWith pc c (.node j w eo2 fc2 lv2 h2 hs2 ps2 ch2 nx2) id
        (.node i v eo fc lv h hs ps ch r.1, r.2)

/-- `treenode.put` (the private method): base case returns on the empty
suffix; otherwise decode the first code point and either create a
first child (when `children == nil`) or scan the sibling chain. -/
def put : List Rune → TN → Int → TN × Int
  | [], t, id => (t, id)
  | _ :: _, .nil, id => (.nil, id)
  | c :: cs, .node i v eo fc lv h hs ps .nil nx, id =>
      let child0 : TN := .node id c false true (-1) 0 zeroHash [i] .nil .nil
      let r := put cs child0 (id + 1)
      (.node i v eo fc lv h hs ps r.1 nx, r.2)
  | c :: cs, .node i v eo fc lv h hs ps (.node j w eo2 fc2 lv2 h2 hs2 ps2 ch2 nx2) nx, id =>
      let r := putScanWith (fun u k => put cs u k) c
        (.node j w eo2 fc2 lv2 h2 hs2 ps2 ch2 nx2) id
      (.node i v eo fc lv h hs ps r.1 nx, r.2)

/-- `treenode.Put` (the public method): unlike `put` it has no empty-
suffix base case — it decodes `fchar` even from the empty string
(getting `RuneError`, size 0) and proceeds; it also bumps the shared
id counter when the receiver's `id` is 0. -/
def Put (s : List Rune) (t : TN) (id : Int) : TN × Int :=
  match t with
  | .nil => (.nil, id)
  | .node i v eo fc lv h hs ps ch nx =>
      let id0 := if i = 0 then id + 1 else id
      let d := decodeRune s
      match ch with
      | .nil =>
          let child0 : TN := .node id0 d.1 false true (-1) 0 zeroHash [i] .nil .nil
          let r := put d.2 child0 (id0 + 1)
          (.node i v eo fc lv h hs ps r.1 nx, r.2)
      | .node j w eo2 fc2 lv2 h2 hs2 ps2 ch2 nx2 =>
          let r := putScanWith (fun u k => put d.2 u k) d.1
            (.node j w eo2 fc2 lv2 h2 hs2 ps2 ch2 nx2) id0
          (.node i v eo fc lv h hs ps r.1 nx, r.2)

/-! ## Structural annotation passes (`Optimise`'s first half) -/

/-- The effect of the loop
`for child := t.children; child != nil; child = child.next { child.computeLevels(level+1) }`
in `computeLevels`, unrolled over a sibling chain: every node of the
chain gets the same level and recurses into its own children chain. -/
def computeLevelsChain : TN → Int → TN
  | .nil, _ => .nil
  | .node i v eo fc _ h hs ps ch nx, lv =>
      .node i v eo fc lv h hs ps (computeLevelsChain ch (lv + 1)) (computeLevelsChain nx lv)

/-- `treenode.computeLevels`: assign the receiver's level and recurse
into the children chain at `level + 1`. -/
def computeLevels : TN → Int → TN
  | .nil, _ => .nil
  | .node i v eo fc _ h hs ps ch nx, lv =>
      .node i v eo fc lv h hs ps (computeLevelsChain ch (lv + 1)) nx

end TN

/-- The Go helper `max(arr []int)`: the maximum of a list with a
starting accumulator of 0. -/
def goMax (arr : List Int) : Int :=
  arr.foldl (fun m v => if v > m then v else m) 0

namespace TN

/-- `computeHeights` applied to every node of a sibling chain
(the loop over the children chain), returning the updated chain
together with the list of the chain's heights (`childrenHeights`). -/
def computeHeightsChain : TN → TN × List Int
  | .nil => (.nil, [])
  | .node i v eo fc lv _ hs ps ch nx =>
      let hj : TN × Int :=
        match ch with
        | .nil => (.nil, 0)
        | _ =>
            let r := computeHeightsChain ch
            (r.1, 1 + goMax r.2)
      let rn := computeHeightsChain nx
      (.node i v eo fc lv hj.2 hs ps hj.1 rn.1, hj.2 :: rn.2)

/-- `treenode.computeHeights`: a leaf has height 0; otherwise
`1 + max(childrenHeights)` over the children chain. -/
def computeHeights : TN → TN
  | .nil => .nil
  | .node i v eo fc lv _ hs ps ch nx =>
      match ch with
      | .nil => .node i v eo fc lv 0 hs ps .nil nx
      | _ =>
          let r := computeHeightsChain ch
          .node i v eo fc lv (1 + goMax r.2) hs ps r.1 nx

/-- `treenode.computeHashes`: post-order accumulation of the raw byte
serialization — the `next` chain's bytes, then the children chain's
bytes, then the node's own UTF-8 value — with the node's `hash` set to
the SHA-1 of that accumulation; returns the updated subtree and the
accumulated bytes (the Go method's return value). -/
def computeHashes : TN → TN × List Nat
  | .nil => (.nil, [])
  | .node i v eo fc lv h _ ps ch nx =>
      let rn := computeHashes nx
      let rc := computeHashes ch
      let data := rn.2 ++ rc.2 ++ utf8Encode v
      (.node i v eo fc lv h (sha1 data) ps rc.1 rn.1, data)

/-- The annotation half of `treenode.Optimise`:
`computeLevels(0)`, `computeHeights()`, `computeHashes()`, in order. -/
def annotate (t : TN) : TN :=
  (computeHashes (computeHeights (computeLevels t 0))).1

end TN

/-! ## Shapes: the structure reachable through `children` and `next`

The specification's notion of "the structure and character contents of
everything reachable from a node through its children chain and its
remaining sibling chain": the tree of `val`s, with the volatile
annotation fields erased. -/

/-- The `children`/`next` reachable shape of a node. -/
inductive Shape where
  | nil : Shape
  | node (val : Rune) (children next : Shape) : Shape
deriving DecidableEq, Repr

namespace TN

/-- Project a node to its reachable shape. -/
def shape : TN → Shape
  | .nil => .nil
  | .node _ v _ _ _ _ _ _ ch nx => .node v (shape ch) (shape nx)

/-- All nodes of a tree (each subterm rooted at a non-nil node). -/
def nodesOf : TN → List TN
  | .nil => []
  | .node i v eo fc lv h hs ps ch nx =>
      .node i v eo fc lv h hs ps ch nx :: (nodesOf ch ++ nodesOf nx)

end TN

/-- The byte serialization that `computeHashes` accumulates, as a
function of the reachable shape alone. -/
def serData : Shape → List Nat
  | .nil => []
  | .node v ch nx => serData nx ++ serData ch ++ utf8Encode v

/-! ## The pointer-graph phase (`Optimise`'s merge loop, `Flatten`)

After annotation the minimizer redirects `children` pointers, creating
sharing, so from here the heap is modelled explicitly: a `Store` is
the list of live node records, each addressed by its `id` field, with
pointers as `Option Int` ids. -/

/-- One `treenode` record in the explicit heap. -/
structure GNode where
  id : Int
  val : Rune
  endofword : Bool
  firstchild : Bool
  level : Int
  height : Int
  hash : List Nat
  parents : List Int
  children : Option Int
  next : Option Int
deriving DecidableEq, Repr

/-- The explicit heap: all node records, addressed by `id`. -/
abbrev Store := List GNode

/-- Dereference a node id. -/
def lookupN (g : Store) (i : Int) : Option GNode :=
  g.find? (fun n => n.id = i)

/-- Mutate the record with id `i` in place. -/
def updateNode (g : Store) (i : Int) (f : GNode → GNode) : Store :=
  g.map (fun n => if n.id = i then f n else n)

namespace TN

/-- The id a pointer to this subtree dereferences to (`none` = null). -/
def headId : TN → Option Int
  | .nil => none
  | .node i _ _ _ _ _ _ _ _ _ => some i

/-- Read the annotated tree off as an explicit heap: one record per
node, `children`/`next` as head ids. -/
def toNodes : TN → Store
  | .nil => []
  | .node i v eo fc lv h hs ps ch nx =>
      { id := i, val := v, endofword := eo, firstchild := fc, level := lv,
        height := h, hash := hs, parents := ps,
        children := ch.headId, next := nx.headId } :: (toNodes ch ++ toNodes nx)

end TN

/-- One iteration of `redirect`'s loop body, for parent `p`:
`parent.children = other; other.parents = append(other.parents, parent)`. -/
def redirectStep (other : Int) (g2 : Store) (p : Int) : Store :=
  updateNode (updateNode g2 p (fun n => { n with children := some other }))
    other (fun n => { n with parents := n.parents ++ [p] })

/-- `treenode.redirect(other)`: panics (modelled as `none`) when the
receiver's `parents` slice is nil; otherwise every parent's `children`
pointer is repointed at `other` and every parent is appended to
`other`'s `parents`.  A dangling receiver id is also `none` (a nil
dereference in Go, unreachable in the pipeline). -/
def redirect (g : Store) (t other : Int) : Option Store :=
  match lookupN g t with
  | none => none
  | some tn =>
      if tn.parents = [] then none
      else some (tn.parents.foldl (redirectStep other) g)

/-- The merge test of `processLevel`:
`first.val == le.val && first.hash == le.hash && first.level == le.level`. -/
def tripleMatch (a b : GNode) : Bool :=
  a.val = b.val && a.hash = b.hash && a.level = b.level

/-- The inner loop of `processLevel`: scan `others` in order for the
first node matching the candidate on `val`, `hash` and `level`. -/
def scanOthers (g : Store) (fn : GNode) : List Int → Option Int
  | [] => none
  | o :: os =>
      match lookupN g o with
      | none => scanOthers g fn os
      | some ln => if tripleMatch fn ln then some o else scanOthers g fn os

/-- The outer loop of `processLevel` over the candidates `firsts`,
with `others` as the growing kept list: a matched candidate is
redirected into its match (a panic aborts the pass), an unmatched one
is appended to `others`. -/
def processFirsts : Store → List Int → List Int → Option Store
  | g, [], _ => some g
  | g, f :: fs, others =>
      match lookupN g f with
      | none => processFirsts g fs others
      | some fn =>
          match scanOthers g fn others with
          | some le =>
              match redirect g f le with
              | none => none
              | some g2 => processFirsts g2 fs others
          | none => processFirsts g fs (others ++ [f])

/-- `processFirsts` instrumented with the list of performed merges
(candidate id, target id), in order; the heap result is unchanged. -/
def processFirstsT : Store → List Int → List Int → Option Store × List (Int × Int)
  | g, [], _ => (some g, [])
  | g, f :: fs, others =>
      match lookupN g f with
      | none => processFirstsT g fs others
      | some fn =>
          match scanOthers g fn others with
          | some le =>
              match redirect g f le with
              | none => (none, [(f, le)])
              | some g2 =>
                  let r := processFirstsT g2 fs others
                  (r.1, (f, le) :: r.2)
          | none => processFirstsT g fs (others ++ [f])

/-- `processLevel(level)`: split the collected nodes into first-child
candidates and the rest (in collection order), then run the merge
scan. -/
def processLevel (g : Store) (level : List Int) : Option Store :=
  let firsts := level.filter (fun i => ((lookupN g i).map GNode.firstchild).getD false)
  let others := level.filter (fun i => !((lookupN g i).map GNode.firstchild).getD false)
  processFirsts g firsts others

/-- The loop `for child := t.children; child != nil; child = child.next`
shared by `collectNodesOfHeightX` and `addNodesOfLevelX`: fold `step`
over the ids of a sibling chain in the heap (`fuel` bounds the chain
walk; the Go loop terminates because chains are finite). -/
def chainFold {α : Type} (g : Store) (step : Int → α → α) :
    Nat → Option Int → α → α
  | 0, _, acc => acc
  | _ + 1, none, acc => acc
  | fuel + 1, some c, acc =>
      chainFold g step fuel ((lookupN g c).bind GNode.next) (step c acc)

/-- `treenode.collectNodesOfHeightX`: add the node to the set when its
height is exactly `j`; when its height exceeds `j`, recurse into the
children chain.  The Go set `map[*treenode]bool` is modelled as a
duplicate-free list in first-insertion order; pointer chasing takes
fuel (one unit per descent; the Go recursion terminates because the
heap is acyclic). -/
def collectNodesOfHeightX : Nat → Store → Int → Int → List Int → List Int
  | 0, _, _, _, acc => acc
  | fuel + 1, g, tid, j, acc =>
      match lookupN g tid with
      | none => acc
      | some t =>
          if t.height = j then (if tid ∈ acc then acc else acc ++ [tid])
          else if t.height > j then
            chainFold g (fun c acc2 => collectNodesOfHeightX fuel g c j acc2)
              (g.length + 1) t.children acc
          else acc

/-- The merge loop of `Optimise` over descending heights `js`: collect
the nodes of height `j`, enumerate the Go set in the order given by
the oracle `order` (Go `map` iteration order is not deterministic),
and run `processLevel`. -/
def mergeSteps (fuel : Nat) (order : Int → List Int → List Int) (rootId : Int) :
    Store → List Int → Option Store
  | g, [] => some g
  | g, j :: js =>
      match processLevel g (order j (collectNodesOfHeightX fuel g rootId j [])) with
      | none => none
      | some g2 => mergeSteps fuel order rootId g2 js

/-- The descending list `maxHeight - 1, …, 1, 0`. -/
def descHeights (maxH : Int) : List Int :=
  ((List.range maxH.toNat).reverse).map Int.ofNat

/-- `treenode.Optimise`, end to end: annotate the trie, read the heap
off, and run the merge loop from `maxHeight - 1` down to `0`.
`order` models the Go map iteration order; `fuel` bounds pointer
chasing during collection. -/
def OptimiseModel (fuel : Nat) (order : Int → List Int → List Int) (t : TN) :
    Option Store :=
  let ta := t.annotate
  mergeSteps fuel order ta.idOf ta.toNodes (descHeights ta.heightOf)

/-! ## The flattener (`Flatten`, `addNodesOfLevelX`) -/

/-- The `arraynode` struct: a flat record with the node's value, the
slot index of its first child (`0` doubling as "no children"), and
the end-of-sibling-run marker. -/
structure ANode where
  val : Rune
  children : Nat
  eol : Bool
deriving DecidableEq, Repr

/-- The mutable state threaded through `Flatten`: the output array,
the `unfilledParents` map (node id ↦ allocated slot) and the
`allocatedNodes` set (as the list of allocated ids in slot order). -/
structure FlatState where
  output : List ANode
  up : List (Int × Nat)
  an : List Int
deriving DecidableEq, Repr

/-- Go map read `(*up)[parent]` (zero value 0 when absent). -/
def upGet (up : List (Int × Nat)) (p : Int) : Nat :=
  ((up.find? (fun e => e.1 = p)).map Prod.snd).getD 0

/-- The patch `(*array)[(*up)[parent]].children = rune(len(*array)-1)`
applied for every already-allocated parent of a freshly allocated
node. -/
def patchParents (parents : List Int) (an : List Int) (up : List (Int × Nat))
    (slot : Nat) (out : List ANode) : List ANode :=
  parents.foldl
    (fun o p =>
      if p ∈ an then
        o.set (upGet up p)
          (match o[upGet up p]? with
           | some r => { r with children := slot }
           | none => { val := 0, children := slot, eol := false })
      else o)
    out

/-- `treenode.addNodesOfLevelX`: at the target level, allocate a slot
for the node unless it already has one — appending the record
`{val, children: 0, eol: next == nil}`, recording the slot, and
patching the `children` index of every already-allocated parent;
above the target level, descend into the children chain only when its
head is a first child (`fuel` bounds the descent depth). -/
def addNodesOfLevelX : Nat → Store → Int → Int → FlatState → FlatState
  | 0, _, _, _, st => st
  | fuel + 1, g, tid, level, st =>
      match lookupN g tid with
      | none => st
      | some t =>
          if t.level = level then
            if tid ∈ st.an then st
            else
              let out1 := st.output ++ [{ val := t.val, children := 0, eol := t.next = none }]
              let up1 := st.up ++ [(tid, out1.length - 1)]
              let an1 := st.an ++ [tid]
              { output := patchParents t.parents an1 up1 (out1.length - 1) out1,
                up := up1, an := an1 }
          else
            match t.children with
            | none => st
            | some cid =>
                match lookupN g cid with
                | none => st
                | some cn =>
                    if cn.firstchild then
                      chainFold g (fun c st2 => addNodesOfLevelX fuel g c level st2)
                        (g.length + 1) (some cid) st
                    else st

/-- The level loop of `treenode.Flatten`: run `addNodesOfLevelX` for
`i = 0, 1, 2, …` and stop as soon as a pass adds no record. -/
def flattenLoop : Nat → Nat → Store → Int → Int → FlatState → FlatState
  | 0, _, _, _, _, st => st
  | fl + 1, cf, g, root, i, st =>
      let st2 := addNodesOfLevelX cf g root i st
      if st2.output.length = st.output.length then st2
      else flattenLoop fl cf g root (i + 1) st2

/-- `treenode.Flatten` up to its in-memory result: the output array
(the subsequent `createDot`/`writeToFile` calls only consume it).
`fl` bounds the level loop and `cf` the per-pass pointer chasing. -/
def FlattenModel (fl cf : Nat) (g : Store) (root : Int) : FlatState :=
  flattenLoop fl cf g root 0 { output := [], up := [], an := [] }

/-! ## The binary encoder (`outarray.writeToFile`) -/

/-- Little-endian 4-byte encoding of a non-negative `rune` (`int32`)
value, as `binary.Write(outfile, binary.LittleEndian, x)` emits it. -/
def le32 (n : Nat) : List Nat :=
  [n % 256, n / 256 % 256, n / 65536 % 256, n / 16777216 % 256]

/-- The single byte `binary.Write` emits for a `bool`. -/
def boolByte (b : Bool) : List Nat :=
  [if b then 1 else 0]

/-- `outarray.writeToFile`: the byte stream written to the artifact
file — for each element in array order, the three `binary.Write`
calls for `val`, `children` and `eol`, appended to the file. -/
def writeToFile (o : List ANode) : List Nat :=
  o.foldl (fun acc el => acc ++ le32 el.val ++ le32 el.children ++ boolByte el.eol) []

/-- Modelled from the spec (§6, binary artifact format): one fixed-size
record — a 4-byte little-endian value, a 4-byte little-endian
children index, and a 1-byte boolean end-of-list marker, in that
order. -/
def specRecord (el : ANode) : List Nat :=
  le32 el.val ++ le32 el.children ++ boolByte el.eol

/-- Modelled from the spec (§6): the artifact is the flat concatenation
of the records in array order, with no header and no record count. -/
def specStream (o : List ANode) : List Nat :=
  (o.map specRecord).flatten

/-! ## Observations on the tree for the insertion claims -/

namespace TN

/-- Search a sibling chain for a node labelled `c` at which the
continuation `rp` (representation of the rest of the word) holds. -/
def chainSearch (rp : TN → Bool) (c : Rune) : TN → Bool
  | .nil => false
  | .node i v eo fc lv h hs ps ch nx =>
      (v = c && rp (.node i v eo fc lv h hs ps ch nx)) || chainSearch rp c nx

/-- Decide whether some root path of the trie spells the word `w`:
the empty word is always represented (at the root); a first code point
must label some node of the children chain, with the rest represented
below it. -/
def represents : TN → List Rune → Bool
  | _, [] => true
  | .nil, _ :: _ => false
  | .node _ _ _ _ _ _ _ _ ch _, c :: cs => chainSearch (fun u => represents u cs) c ch

/-- `t` grows into `u`: every existing node keeps its `id`, `val`,
`endofword`, `firstchild`, `level`, `height`, `hash` and `parents`
fields, and its position in its sibling chain; a null `children` or
`next` pointer may be filled with anything. -/
def growsInto : TN → TN → Bool
  | .nil, _ => true
  | .node _ _ _ _ _ _ _ _ _ _, .nil => false
  | .node i v eo fc lv h hs ps ch nx, .node i2 v2 eo2 fc2 lv2 h2 hs2 ps2 ch2 nx2 =>
      i = i2 && v = v2 && eo = eo2 && fc = fc2 && lv = lv2 && h = h2 &&
        hs = hs2 && ps = ps2 && growsInto ch ch2 && growsInto nx nx2

end TN

/-! ## Concrete pipeline runs used by several claims -/

/-- Build a trie by `Put`ting each word in order on a fresh `NewDAWG`
root with the shared id counter starting at 0. -/
def buildTrie (ws : List (List Rune)) : TN × Int :=
  ws.foldl (fun r w => TN.Put w r.1 r.2) (TN.NewDAWG, 0)

/-- The vocabulary `{"ca","cb","da","db"}` (code points): after
minimization the two `a` nodes merge, giving the survivor two
parents. -/
def vocabCD : List (List Rune) := [[99, 97], [99, 98], [100, 97], [100, 98]]

/-- The trie for `vocabCD`. -/
def trieCD : TN := (buildTrie vocabCD).1

/-- One possible Go map iteration order: first-insertion order. -/
def ordId : Int → List Int → List Int := fun _ l => l

/-- Another possible Go map iteration order: reversed. -/
def ordRev : Int → List Int → List Int := fun _ l => l.reverse

/-- The minimized heap for `vocabCD` under the first-insertion
enumeration order. -/
def mergedCD : Store := (OptimiseModel 20 ordId trieCD).getD []

/-- A third map iteration order: reversing twice (extensionally the
first-insertion order). -/
def ordRevRev : Int → List Int → List Int := fun _ l => l.reverse.reverse

/-- The vocabulary `{"cab","da","db"}`: the `a` below `c` has child
`b`, while the `a` below `d` has sibling `b` — distinct shapes whose
hash serializations coincide. -/
def vocabHash : List (List Rune) := [[99, 97, 98], [100, 97], [100, 98]]

/-- The annotated trie for `vocabHash`. -/
def trieHashA : TN := (buildTrie vocabHash).1.annotate

/-- The `a` node below `c` in `trieHashA` (child `b`, no sibling). -/
def nodeA1 : TN := trieHashA.childrenOf.childrenOf

/-- The `a` node below `d` in `trieHashA` (no child, sibling `b`). -/
def nodeA2 : TN := trieHashA.childrenOf.nextOf.childrenOf

/-- The trie for `{"ab","cb"}`, after `computeHashes`. -/
def trieW : TN := (TN.computeHashes (buildTrie [[97, 98], [99, 98]]).1).1

/-- The `b` leaf below `a` in `trieW`. -/
def nodeB1 : TN := trieW.childrenOf.childrenOf

/-- The `b` leaf below `c` in `trieW`. -/
def nodeB2 : TN := trieW.childrenOf.nextOf.childrenOf

/-- A two-record heap for exercising `redirect`: node 2 is the first
child of node 1. -/
def gRedirectChild : GNode :=
  { id := 2, val := 97, endofword := false, firstchild := true, level := 1,
    height := 0, hash := zeroHash, parents := [1], children := none, next := none }

/-- The heap holding `gRedirectChild` and its parent node 1. -/
def gRedirectDemo : Store :=
  [{ id := 1, val := 8709, endofword := false, firstchild := false, level := 0,
     height := 1, hash := zeroHash, parents := [], children := some 2, next := none },
   gRedirectChild]

/-- A three-record heap for exercising `processLevel`: node 10 is a
first-child candidate, node 20 a kept node with the same `val`,
`hash` and `level`, node 1 the candidate's parent. -/
def gC1demo : Store :=
  [{ id := 1, val := 99, endofword := false, firstchild := false, level := 1,
     height := 1, hash := zeroHash, parents := [], children := some 10, next := none },
   { id := 10, val := 97, endofword := false, firstchild := true, level := 2,
     height := 0, hash := [7], parents := [1], children := none, next := none },
   { id := 20, val := 97, endofword := false, firstchild := false, level := 2,
     height := 0, hash := [7], parents := [], children := none, next := none }]

/-- The heap `processLevel` produces from `gC1demo` on the level list
`[10, 20]` (node 10 merged into node 20). -/
def gC1res : Store := (processLevel gC1demo [10, 20]).getD []

/-- The minimized heap of the empty vocabulary (the sentinel root
only). -/
def emptyDawgStore : Store := (OptimiseModel 10 ordId TN.NewDAWG).getD []

/-- The flattened array of the empty vocabulary. -/
def emptyDawgOut : List ANode := (FlattenModel 4 10 emptyDawgStore (-1)).output

/-- The minimized heap of the one-word vocabulary `{"a"}`. -/
def oneWordStore : Store := (OptimiseModel 10 ordId (buildTrie [[97]]).1).getD []

/-! ## Claim C3 — empty-string insertion through `Put`

The private `put` returns immediately on an empty suffix, but the
public `Put` has no such base case: it decodes `RuneError` (U+FFFD,
size 0) from the empty string and inserts it as an ordinary code
point.  On a fresh root this creates a node and bumps the counter. -/

/-- **C3** (code bug): calling the public `Put` with the empty string
on a fresh `NewDAWG` root is *not* a no-op — it appends a first child
holding U+FFFD (the value `utf8.DecodeRuneInString` yields on `""`),
with the root as parent, and increments the shared id counter from 0
to 1.  The private `put` (which the spec's base case describes) does
return unchanged on the empty suffix. -/
theorem claim_C3_Put_empty_creates_node :
    (TN.Put [] TN.NewDAWG 0).1 ≠ TN.NewDAWG ∧
    (TN.Put [] TN.NewDAWG 0).2 = 1 ∧
    (TN.Put [] TN.NewDAWG 0).1.childrenOf =
      TN.node 0 0xFFFD false true (-1) 0 zeroHash [-1] TN.nil TN.nil ∧
    (∀ t id, TN.put [] t id = (t, id)) := by
  refine ⟨by decide, by decide, by decide, fun t id => rfl⟩

/-! ## Claim C9 — the binary artifact format -/

/-- Unfolding the encoder's fold into the concatenation of the
per-record byte strings. -/
theorem writeToFile_foldl_eq (o : List ANode) :
    ∀ a : List Nat,
      o.foldl (fun acc el => acc ++ le32 el.val ++ le32 el.children ++ boolByte el.eol) a =
        a ++ specStream o := by
  induction o with
  | nil => intro a; simp [specStream]
  | cons x xs ih =>
      intro a
      rw [List.foldl_cons, ih]
      simp [specStream, specRecord, List.append_assoc]

/-- Each spec record is 9 bytes, so the stream is `9 * len` bytes. -/
theorem specStream_length (o : List ANode) : (specStream o).length = 9 * o.length := by
  induction o with
  | nil => simp [specStream]
  | cons x xs ih =>
      simp only [specStream, List.map_cons, List.flatten_cons, List.length_append,
        List.length_cons] at *
      simp [specRecord, le32, boolByte, ih]
      ring

/-- **C9** (confirmed): the encoder emits exactly the flat record
stream the spec describes — the concatenation, in array order, of one
9-byte record per slot (4-byte little-endian `value`, 4-byte
little-endian `childrenIndex`, 1-byte `endOfList` boolean, in that
order), with no header and no record count: the file length is
`9 * len(o)`. -/
theorem claim_C9_encoder_format (o : List ANode) :
    writeToFile o = specStream o ∧
    (∀ el : ANode, specRecord el = le32 el.val ++ le32 el.children ++ boolByte el.eol ∧
      (specRecord el).length = 9) ∧
    (writeToFile o).length = 9 * o.length := by
  have hw : writeToFile o = specStream o := by
    simpa [writeToFile] using writeToFile_foldl_eq o []
  exact ⟨hw, fun el => ⟨rfl, by simp [specRecord, le32, boolByte]⟩,
    by rw [hw]; exact specStream_length o⟩

/-! ## Claim C2 — content hashes versus reachable structure

The serialization `computeHashes` hashes has no delimiters: the bytes
of the `next` chain and the bytes of the `children` chain are
concatenated bare, so a node whose only relative is a sibling `b` and
a node whose only relative is a child `b` serialize identically.  The
forward direction (identical reachable structure ⇒ equal hash) does
hold: the accumulated bytes are a function of the reachable shape. -/

/-- The bytes `computeHashes` returns are a function of the node's
reachable shape. -/
theorem computeHashes_data_eq_serData (t : TN) :
    (TN.computeHashes t).2 = serData t.shape := by
  induction t with
  | nil => simp [TN.computeHashes, TN.shape, serData]
  | node i v eo fc lv h hs ps ch nx ihch ihnx =>
      simp [TN.computeHashes, TN.shape, serData, ihch, ihnx]

/-- `computeHashes` only rewrites `hash` fields: it preserves the
reachable shape. -/
theorem computeHashes_shape (t : TN) : (TN.computeHashes t).1.shape = t.shape := by
  induction t with
  | nil => simp [TN.computeHashes]
  | node i v eo fc lv h hs ps ch nx ihch ihnx =>
      simp [TN.computeHashes, TN.shape, ihch, ihnx]

/-- After `computeHashes`, every node's `hash` field is the SHA-1 of
the serialization of its own reachable shape. -/
theorem computeHashes_hash_spec (t : TN) :
    ∀ n ∈ (TN.computeHashes t).1.nodesOf, n.hashOf = sha1 (serData n.shape) := by
  induction t with
  | nil => simp [TN.computeHashes, TN.nodesOf]
  | node i v eo fc lv h hs ps ch nx ihch ihnx =>
      intro n hn
      simp only [TN.computeHashes, TN.nodesOf, List.mem_cons, List.mem_append] at hn
      rcases hn with hn | hn | hn
      · subst hn
        simp [TN.hashOf, TN.shape, serData, computeHashes_shape,
          computeHashes_data_eq_serData]
      · exact ihch n hn
      · exact ihnx n hn

/-- **C2** (counterexample): in the annotated trie for
`{"cab","da","db"}`, the `a` node below `c` (whose only relative is a
*child* `b`) and the `a` node below `d` (whose only relative is a
*sibling* `b`) have different reachable structure but identical
`contentHash` — both serialize to the bytes `[98, 97]`, so the claimed
"equal hash only if identical reachable structure" direction fails. -/
theorem claim_C2_hash_collision :
    nodeA1 ∈ trieHashA.nodesOf ∧ nodeA2 ∈ trieHashA.nodesOf ∧
    nodeA1.hashOf = nodeA2.hashOf ∧ nodeA1.shape ≠ nodeA2.shape := by
  refine ⟨by decide, by decide, ?_, by decide⟩
  decide

/-- **C2** (amended): only the "if" direction holds — after
`computeHashes`, any two nodes whose reachable
subtree-plus-remaining-sibling-chain structure and contents are
identical have equal `contentHash`; the converse is refuted by
`claim_C2_hash_collision`. -/
theorem claim_C2_amended_hash_of_shape (t n1 n2 : TN)
    (h1 : n1 ∈ (TN.computeHashes t).1.nodesOf)
    (h2 : n2 ∈ (TN.computeHashes t).1.nodesOf)
    (hs : n1.shape = n2.shape) : n1.hashOf = n2.hashOf := by
  rw [computeHashes_hash_spec t n1 h1, computeHashes_hash_spec t n2 h2, hs]

/-- Witness for `claim_C2_amended_hash_of_shape`: the two `b` leaves of
the `{"ab","cb"}` trie have identical reachable shape, and the theorem
yields their hash equality. -/
theorem claim_C2_amended_witness :
    nodeB1 ∈ (TN.computeHashes (buildTrie [[97, 98], [99, 98]]).1).1.nodesOf ∧
    nodeB2 ∈ (TN.computeHashes (buildTrie [[97, 98], [99, 98]]).1).1.nodesOf ∧
    nodeB1.shape = nodeB2.shape ∧ nodeB1.hashOf = nodeB2.hashOf :=
  ⟨by decide, by decide, by decide,
    claim_C2_amended_hash_of_shape (buildTrie [[97, 98], [99, 98]]).1 nodeB1 nodeB2
      (by decide) (by decide) (by decide)⟩

/-! ## Claim C7 — idempotence of insertion -/

/-- `put` on a node returns a node with every field except `children`
(and the counter) unchanged. -/
theorem put_node_shape (s : List Rune) (i : Int) (v : Rune) (eo fc : Bool)
    (lv h : Int) (hs : List Nat) (ps : List Int) (ch nx : TN) (id : Int) :
    ∃ ch2 id2,
      TN.put s (.node i v eo fc lv h hs ps ch nx) id =
        (.node i v eo fc lv h hs ps ch2 nx, id2) := by
  cases s with
  | nil => exact ⟨ch, id, rfl⟩
  | cons c cs =>
      cases ch with
      | nil => exact ⟨_, _, rfl⟩
      | node _ _ _ _ _ _ _ _ _ _ => exact ⟨_, _, rfl⟩

/-- The sibling scan on a node chain returns a node chain whose head
keeps every field except `children` and `next`, provided the
continuation `pc` preserves node heads (as `put` does). -/
theorem putScanWith_node_shape (pc : TN → Int → TN × Int) (c : Rune)
    (hpc : ∀ i v eo fc lv h hs ps ch nx k, ∃ ch2 k2,
      pc (.node i v eo fc lv h hs ps ch nx) k = (.node i v eo fc lv h hs ps ch2 nx, k2)) :
    ∀ (j : Int) (w : Rune) (eo2 fc2 : Bool) (lv2 h2 : Int) (hs2 : List Nat)
      (ps2 : List Int) (ch2 nx2 : TN) (id : Int),
      ∃ ch3 nx3 id3,
        TN.putScanWith pc c (.node j w eo2 fc2 lv2 h2 hs2 ps2 ch2 nx2) id =
          (.node j w eo2 fc2 lv2 h2 hs2 ps2 ch3 nx3, id3) := by
  intro j w eo2 fc2 lv2 h2 hs2 ps2 ch2 nx2 id
  cases nx2 with
  | nil =>
      by_cases hw : w = c
      · subst hw
        obtain ⟨ch3, k3, hps⟩ := hpc j w eo2 fc2 lv2 h2 hs2 ps2 ch2 .nil id
        exact ⟨ch3, .nil, k3, by simp [TN.putScanWith, hps]⟩
      · exact ⟨ch2,
          (pc (.node id c false false (-1) 0 zeroHash [] .nil .nil) (id + 1)).1,
          (pc (.node id c false false (-1) 0 zeroHash [] .nil .nil) (id + 1)).2,
          by simp [TN.putScanWith, hw]⟩
  | node j4 w4 eo4 fc4 lv4 h4 hs4 ps4 ch4 nx4 =>
      by_cases hw : w = c
      · subst hw
        obtain ⟨ch3, k3, hps⟩ := hpc j w eo2 fc2 lv2 h2 hs2 ps2 ch2
          (.node j4 w4 eo4 fc4 lv4 h4 hs4 ps4 ch4 nx4) id
        exact ⟨ch3, .node j4 w4 eo4 fc4 lv4 h4 hs4 ps4 ch4 nx4, k3,
          by simp [TN.putScanWith, hps]⟩
      · exact ⟨ch2,
          (TN.putScanWith pc c (.node j4 w4 eo4 fc4 lv4 h4 hs4 ps4 ch4 nx4) id).1,
          (TN.putScanWith pc c (.node j4 w4 eo4 fc4 lv4 h4 hs4 ps4 ch4 nx4) id).2,
          by simp [TN.putScanWith, hw]⟩

/-- The sibling scan is idempotent, provided the continuation `pc`
preserves node heads and is itself idempotent (for any second
counter). -/
theorem putScanWith_idem (pc : TN → Int → TN × Int) (c : Rune)
    (hpc : ∀ i v eo fc lv h hs ps ch nx k, ∃ ch2 k2,
      pc (.node i v eo fc lv h hs ps ch nx) k = (.node i v eo fc lv h hs ps ch2 nx, k2))
    (hpcid : ∀ t k k2, pc (pc t k).1 k2 = ((pc t k).1, k2)) :
    ∀ (chain : TN) (k k2 : Int),
      TN.putScanWith pc c (TN.putScanWith pc c chain k).1 k2 =
        ((TN.putScanWith pc c chain k).1, k2) := by
  intro chain
  induction chain with
  | nil => intro k k2; simp [TN.putScanWith]
  | node j w eo2 fc2 lv2 h2 hs2 ps2 ch2 nx2 ihch ihnx =>
      intro k k2
      cases nx2 with
      | nil =>
          by_cases hw : w = c
          · subst hw
            obtain ⟨ch3, k3, hps⟩ := hpc j w eo2 fc2 lv2 h2 hs2 ps2 ch2 .nil k
            have hid := hpcid (.node j w eo2 fc2 lv2 h2 hs2 ps2 ch2 .nil) k k2
            rw [hps] at hid
            simp [TN.putScanWith, hps, hid]
          · obtain ⟨ch4, k4, hn⟩ := hpc k c false false (-1) 0 zeroHash [] .nil .nil (k + 1)
            have h2i := hpcid (.node k c false false (-1) 0 zeroHash [] .nil .nil) (k + 1) k2
            rw [hn] at h2i
            simp [TN.putScanWith, hw, hn, h2i]
      | node j4 w4 eo4 fc4 lv4 h4 hs4 ps4 ch4 nx4 =>
          by_cases hw : w = c
          · subst hw
            obtain ⟨ch3, k3, hps⟩ := hpc j w eo2 fc2 lv2 h2 hs2 ps2 ch2
              (.node j4 w4 eo4 fc4 lv4 h4 hs4 ps4 ch4 nx4) k
            have hid := hpcid (.node j w eo2 fc2 lv2 h2 hs2 ps2 ch2
              (.node j4 w4 eo4 fc4 lv4 h4 hs4 ps4 ch4 nx4)) k k2
            rw [hps] at hid
            simp [TN.putScanWith, hps, hid]
          · obtain ⟨ch5, nx5, k5, hsc⟩ := putScanWith_node_shape pc c hpc
              j4 w4 eo4 fc4 lv4 h4 hs4 ps4 ch4 nx4 k
            have hrec := ihnx k k2
            rw [hsc] at hrec
            simp [TN.putScanWith, hw, hsc, hrec]

/-- The private `put` is idempotent: re-inserting the same suffix into
the result changes nothing, whatever the second counter value. -/
theorem put_idem (s : List Rune) :
    ∀ (t : TN) (id id2 : Int),
      TN.put s (TN.put s t id).1 id2 = ((TN.put s t id).1, id2) := by
  induction s with
  | nil => intro t id id2; rfl
  | cons c cs ih =>
      intro t id id2
      cases t with
      | nil => rfl
      | node i v eo fc lv h hs ps ch nx =>
          cases ch with
          | nil =>
              obtain ⟨ch2, k2, hshape⟩ := put_node_shape cs id c false true (-1) 0
                zeroHash [i] .nil .nil (id + 1)
              have hidem := ih (.node id c false true (-1) 0 zeroHash [i] .nil .nil)
                (id + 1) id2
              rw [hshape] at hidem
              simp [TN.put, hshape, TN.putScanWith, hidem]
          | node j w eo2 fc2 lv2 h2 hs2 ps2 ch2 nx2 =>
              obtain ⟨ch3, nx3, k3, hsc⟩ := putScanWith_node_shape
                (fun u k => TN.put cs u k) c
                (fun i2 v2 eo3 fc3 lv3 h3 hs3 ps3 ch4 nx4 k =>
                  put_node_shape cs i2 v2 eo3 fc3 lv3 h3 hs3 ps3 ch4 nx4 k)
                j w eo2 fc2 lv2 h2 hs2 ps2 ch2 nx2 id
              have hsi := putScanWith_idem (fun u k => TN.put cs u k) c
                (fun i2 v2 eo3 fc3 lv3 h3 hs3 ps3 ch4 nx4 k =>
                  put_node_shape cs i2 v2 eo3 fc3 lv3 h3 hs3 ps3 ch4 nx4 k)
                (fun u k k2 => ih u k k2)
                (.node j w eo2 fc2 lv2 h2 hs2 ps2 ch2 nx2) id id2
              rw [hsc] at hsi
              simp [TN.put, hsc, hsi]

/-- `Put` on a node returns a node with every field except `children`
(and the counter) unchanged. -/
theorem Put_node_shape (s : List Rune) (i : Int) (v : Rune) (eo fc : Bool)
    (lv h : Int) (hs : List Nat) (ps : List Int) (ch nx : TN) (id : Int) :
    ∃ ch2 id2,
      TN.Put s (.node i v eo fc lv h hs ps ch nx) id =
        (.node i v eo fc lv h hs ps ch2 nx, id2) := by
  cases ch with
  | nil => exact ⟨_, _, rfl⟩
  | node _ _ _ _ _ _ _ _ _ _ => exact ⟨_, _, rfl⟩

/-- **C7** (confirmed): the public insert is idempotent on the node
graph — `Put`ting the same word twice in succession (the second call
starting from any counter value, in particular the one the first call
returned) yields exactly the graph of the single insertion: no new
node, no duplicate path, no change at all. -/
theorem claim_C7_Put_idempotent (s : List Rune) (t : TN) (id id2 : Int) :
    (TN.Put s (TN.Put s t id).1 id2).1 = (TN.Put s t id).1 := by
  cases t with
  | nil => rfl
  | node i v eo fc lv h hs ps ch nx =>
      cases ch with
      | nil =>
          obtain ⟨ch2, k2, hshape⟩ := put_node_shape (decodeRune s).2
            (if i = 0 then id + 1 else id) (decodeRune s).1 false true (-1) 0
            zeroHash [i] .nil .nil ((if i = 0 then id + 1 else id) + 1)
          have hidem := put_idem (decodeRune s).2
            (.node (if i = 0 then id + 1 else id) (decodeRune s).1 false true (-1) 0
              zeroHash [i] .nil .nil)
            ((if i = 0 then id + 1 else id) + 1)
            (if i = 0 then id2 + 1 else id2)
          rw [hshape] at hidem
          simp [TN.Put, hshape, TN.putScanWith, hidem]
      | node j w eo2 fc2 lv2 h2 hs2 ps2 ch2 nx2 =>
          obtain ⟨ch3, nx3, k3, hsc⟩ := putScanWith_node_shape
            (fun u k => TN.put (decodeRune s).2 u k) (decodeRune s).1
            (fun i2 v2 eo3 fc3 lv3 h3 hs3 ps3 ch4 nx4 k =>
              put_node_shape (decodeRune s).2 i2 v2 eo3 fc3 lv3 h3 hs3 ps3 ch4 nx4 k)
            j w eo2 fc2 lv2 h2 hs2 ps2 ch2 nx2 (if i = 0 then id + 1 else id)
          have hsi := putScanWith_idem (fun u k => TN.put (decodeRune s).2 u k)
            (decodeRune s).1
            (fun i2 v2 eo3 fc3 lv3 h3 hs3 ps3 ch4 nx4 k =>
              put_node_shape (decodeRune s).2 i2 v2 eo3 fc3 lv3 h3 hs3 ps3 ch4 nx4 k)
            (fun u k k2 => put_idem (decodeRune s).2 u k k2)
            (.node j w eo2 fc2 lv2 h2 hs2 ps2 ch2 nx2) (if i = 0 then id + 1 else id)
            (if i = 0 then id2 + 1 else id2)
          rw [hsc] at hsi
          simp [TN.Put, hsc, hsi]

/-! ## Claim C10 — insertion only grows the trie -/

/-- `growsInto` is reflexive. -/
theorem growsInto_refl (t : TN) : TN.growsInto t t = true := by
  induction t with
  | nil => rfl
  | node i v eo fc lv h hs ps ch nx ihch ihnx => simp [TN.growsInto, ihch, ihnx]

/-- The sibling scan only grows the chain, provided the continuation
only grows its argument. -/
theorem putScanWith_grows (pc : TN → Int → TN × Int) (c : Rune)
    (hpc : ∀ t k, TN.growsInto t (pc t k).1 = true) :
    ∀ (chain : TN) (k : Int), TN.growsInto chain (TN.putScanWith pc c chain k).1 = true := by
  intro chain
  induction chain with
  | nil => intro k; rfl
  | node j w eo2 fc2 lv2 h2 hs2 ps2 ch2 nx2 ihch ihnx =>
      intro k
      cases nx2 with
      | nil =>
          by_cases hw : w = c
          · simpa [TN.putScanWith, hw] using hpc (.node j w eo2 fc2 lv2 h2 hs2 ps2 ch2 .nil) k
          · simp [TN.putScanWith, hw, TN.growsInto, growsInto_refl]
      | node j4 w4 eo4 fc4 lv4 h4 hs4 ps4 ch4 nx4 =>
          by_cases hw : w = c
          · simpa [TN.putScanWith, hw] using
              hpc (.node j w eo2 fc2 lv2 h2 hs2 ps2 ch2
                (.node j4 w4 eo4 fc4 lv4 h4 hs4 ps4 ch4 nx4)) k
          · simp [TN.putScanWith, hw, TN.growsInto, growsInto_refl, ihnx k]

/-- `put` only grows the tree. -/
theorem put_grows (s : List Rune) :
    ∀ (t : TN) (id : Int), TN.growsInto t (TN.put s t id).1 = true := by
  induction s with
  | nil => intro t id; exact growsInto_refl t
  | cons c cs ih =>
      intro t id
      cases t with
      | nil => rfl
      | node i v eo fc lv h hs ps ch nx =>
          cases ch with
          | nil => simp [TN.put, TN.growsInto, growsInto_refl]
          | node j w eo2 fc2 lv2 h2 hs2 ps2 ch2 nx2 =>
              simp only [TN.put]
              simp [TN.growsInto, growsInto_refl,
                putScanWith_grows (fun u k => TN.put cs u k) c (fun u k => ih u k)
                  (.node j w eo2 fc2 lv2 h2 hs2 ps2 ch2 nx2) id]

/-- `Put` only grows the tree. -/
theorem Put_grows (s : List Rune) (t : TN) (id : Int) :
    TN.growsInto t (TN.Put s t id).1 = true := by
  cases t with
  | nil => rfl
  | node i v eo fc lv h hs ps ch nx =>
      cases ch with
      | nil => simp [TN.Put, TN.growsInto, growsInto_refl]
      | node j w eo2 fc2 lv2 h2 hs2 ps2 ch2 nx2 =>
          simp only [TN.Put]
          simp [TN.growsInto, growsInto_refl,
            putScanWith_grows (fun u k => TN.put (decodeRune s).2 u k) (decodeRune s).1
              (fun u k => put_grows (decodeRune s).2 u k)
              (.node j w eo2 fc2 lv2 h2 hs2 ps2 ch2 nx2) (if i = 0 then id + 1 else id)]

/-- A grown sibling chain still carries every match of the old chain,
provided the continuation predicate transfers along `growsInto`. -/
theorem chainSearch_grows (c : Rune) (rp rq : TN → Bool)
    (hr : ∀ t u, TN.growsInto t u = true → rp t = true → rq u = true) :
    ∀ (ch ch2 : TN), TN.growsInto ch ch2 = true →
      TN.chainSearch rp c ch = true → TN.chainSearch rq c ch2 = true := by
  intro ch
  induction ch with
  | nil => intro ch2 _ hfalse; simp [TN.chainSearch] at hfalse
  | node j w eo2 fc2 lv2 h2 hs2 ps2 chs nxs ihch ihnx =>
      intro ch2 hg hsearch
      cases ch2 with
      | nil => simp [TN.growsInto] at hg
      | node j3 w3 eo3 fc3 lv3 h3 hs3 ps3 ch3 nx3 =>
          have hg0 := hg
          simp only [TN.growsInto, Bool.and_eq_true, decide_eq_true_eq] at hg
          obtain ⟨⟨⟨⟨⟨⟨⟨⟨⟨hj, hw⟩, heo⟩, hfc⟩, hlv⟩, hh⟩, hhs⟩, hps⟩, hch⟩, hnx⟩ := hg
          simp only [TN.chainSearch, Bool.or_eq_true, Bool.and_eq_true,
            decide_eq_true_eq] at hsearch ⊢
          rcases hsearch with ⟨hv, hrp⟩ | hrest
          · exact Or.inl ⟨hw ▸ hv, hr _ _ hg0 hrp⟩
          · exact Or.inr (ihnx nx3 hnx hrest)

/-- Words represented by root paths survive growth of the trie. -/
theorem represents_grows :
    ∀ (w : List Rune) (t u : TN), TN.growsInto t u = true →
      TN.represents t w = true → TN.represents u w = true := by
  intro w
  induction w with
  | nil => intro t u _ _; cases u <;> rfl
  | cons c cs ih =>
      intro t u hg hr
      cases t with
      | nil => simp [TN.represents] at hr
      | node i v eo fc lv h hs ps ch nx =>
          cases u with
          | nil => simp [TN.growsInto] at hg
          | node i3 v3 eo3 fc3 lv3 h3 hs3 ps3 ch3 nx3 =>
              simp only [TN.represents] at hr ⊢
              simp only [TN.growsInto, Bool.and_eq_true, decide_eq_true_eq] at hg
              exact chainSearch_grows c _ _ (fun a b hab hpa => ih a b hab hpa)
                ch ch3 hg.1.2 hr

/-- **C10** (confirmed): `Put` only grows the trie — every existing
node keeps its `id`, `val`, `endofword`, `firstchild`, `level`,
`height`, `hash`, `parents` and its position in its sibling chain
(new material only fills previously null `children`/`next` pointers
or extends chain tails); consequently every word represented by a
root path before an insertion is still represented afterwards. -/
theorem claim_C10_Put_only_grows (s : List Rune) (t : TN) (id : Int) :
    TN.growsInto t (TN.Put s t id).1 = true ∧
    ∀ w, TN.represents t w = true → TN.represents (TN.Put s t id).1 w = true :=
  ⟨Put_grows s t id, fun w hw => represents_grows w t _ (Put_grows s t id) hw⟩

/-- Witness for `claim_C10_Put_only_grows`: inserting `"cart"` into
the `{"ca","cb","da","db"}` trie keeps the root path for `"ca"`. -/
theorem claim_C10_witness :
    TN.represents trieCD [99, 97] = true ∧
    TN.growsInto trieCD (TN.Put [99, 97, 114, 116] trieCD 6).1 = true ∧
    TN.represents (TN.Put [99, 97, 114, 116] trieCD 6).1 [99, 97] = true :=
  ⟨by decide, (claim_C10_Put_only_grows [99, 97, 114, 116] trieCD 6).1,
    (claim_C10_Put_only_grows [99, 97, 114, 116] trieCD 6).2 [99, 97] (by decide)⟩

/-! ## Store lemmas and claim C8 — `redirect` -/

/-- Looking a record up after an id-preserving in-place update. -/
theorem lookupN_updateNode (g : Store) (t x : Int) (f : GNode → GNode)
    (hf : ∀ n, (f n).id = n.id) :
    lookupN (updateNode g t f) x =
      if x = t then (lookupN g x).map f else lookupN g x := by
  unfold lookupN updateNode
  rw [List.find?_map]
  have hpred : ((fun n : GNode => decide (n.id = x)) ∘ fun n => if n.id = t then f n else n)
      = fun n : GNode => decide (n.id = x) := by
    funext n
    by_cases h : n.id = t <;> simp [h, hf]
  rw [hpred]
  cases hfind : List.find? (fun n : GNode => decide (n.id = x)) g with
  | none => simp
  | some n =>
      have hn : n.id = x := by simpa using List.find?_some hfind
      by_cases hxt : x = t
      · simp [hxt, hn]
      · simp [hxt, hn]

/-- `lookupN` after the `parent.children = other` write. -/
theorem lookupN_setChildren (g : Store) (t x : Int) (o2 : Option Int) :
    lookupN (updateNode g t (fun n => { n with children := o2 })) x =
      if x = t then (lookupN g x).map (fun n => { n with children := o2 })
      else lookupN g x :=
  lookupN_updateNode g t x (fun n => { n with children := o2 }) (fun _ => rfl)

/-- `lookupN` after the `other.parents = append(other.parents, p)`
write. -/
theorem lookupN_addParent (g : Store) (t x p : Int) :
    lookupN (updateNode g t (fun n => { n with parents := n.parents ++ [p] })) x =
      if x = t then (lookupN g x).map (fun n => { n with parents := n.parents ++ [p] })
      else lookupN g x :=
  lookupN_updateNode g t x (fun n => { n with parents := n.parents ++ [p] }) (fun _ => rfl)

/-- A `redirectStep` never changes which ids are present. -/
theorem redirectStep_isSome (o : Int) (g : Store) (p x : Int) :
    (lookupN (redirectStep o g p) x).isSome = (lookupN g x).isSome := by
  unfold redirectStep
  rw [lookupN_addParent, lookupN_setChildren]
  by_cases h1 : x = o <;> by_cases h2 : x = p <;> cases hg : lookupN g x <;>
    simp_all

/-- A `redirectStep` for parent `p` sets `p`'s `children` pointer to
the target. -/
theorem redirectStep_children_self (o : Int) (g : Store) (p : Int)
    (hp : (lookupN g p).isSome) :
    (lookupN (redirectStep o g p) p).map GNode.children = some (some o) := by
  unfold redirectStep
  rw [lookupN_addParent, lookupN_setChildren]
  obtain ⟨n, hn⟩ := Option.isSome_iff_exists.mp hp
  by_cases h1 : p = o <;> simp_all

/-- A `redirectStep` for parent `p` leaves every other record's
`children` pointer unchanged. -/
theorem redirectStep_children_other (o : Int) (g : Store) (p x : Int) (hx : x ≠ p) :
    (lookupN (redirectStep o g p) x).map GNode.children =
      (lookupN g x).map GNode.children := by
  unfold redirectStep
  rw [lookupN_addParent, lookupN_setChildren]
  by_cases h1 : x = o <;> cases hg : lookupN g x <;>
    simp_all [Option.map_map, Function.comp]

/-- A `redirectStep` appends `p` to the target's `parents`. -/
theorem redirectStep_parents_target (o : Int) (g : Store) (p : Int) :
    (lookupN (redirectStep o g p) o).map GNode.parents =
      (lookupN g o).map (fun n => n.parents ++ [p]) := by
  unfold redirectStep
  rw [lookupN_addParent, lookupN_setChildren]
  by_cases h1 : o = p <;> cases hg : lookupN g o <;>
    simp_all [Option.map_map, Function.comp]

/-- A `redirectStep` preserves every record's `val`, `hash` and
`level`. -/
theorem redirectStep_triple (o : Int) (g : Store) (p x : Int) :
    (lookupN (redirectStep o g p) x).map (fun n => (n.val, n.hash, n.level)) =
      (lookupN g x).map (fun n => (n.val, n.hash, n.level)) := by
  unfold redirectStep
  rw [lookupN_addParent, lookupN_setChildren]
  by_cases h1 : x = o <;> by_cases h2 : x = p <;> cases hg : lookupN g x <;>
    simp_all [Option.map_map, Function.comp]

/-- Folding `redirectStep` over a parent list: presence of every id is
preserved. -/
theorem redirectFold_isSome (o : Int) (ps : List Int) :
    ∀ (g : Store) (x : Int),
      (lookupN (ps.foldl (redirectStep o) g) x).isSome = (lookupN g x).isSome := by
  induction ps with
  | nil => intro g x; rfl
  | cons p rest ih => intro g x; rw [List.foldl_cons, ih, redirectStep_isSome]

/-- Folding `redirectStep` over a parent list: `val`, `hash` and
`level` of every record are preserved. -/
theorem redirectFold_triple (o : Int) (ps : List Int) :
    ∀ (g : Store) (x : Int),
      (lookupN (ps.foldl (redirectStep o) g) x).map (fun n => (n.val, n.hash, n.level)) =
        (lookupN g x).map (fun n => (n.val, n.hash, n.level)) := by
  induction ps with
  | nil => intro g x; rfl
  | cons p rest ih => intro g x; rw [List.foldl_cons, ih, redirectStep_triple]

/-- Folding `redirectStep` over a parent list leaves the `children`
pointer of every id outside the list unchanged. -/
theorem redirectFold_children_outside (o : Int) (ps : List Int) :
    ∀ (g : Store) (x : Int), x ∉ ps →
      (lookupN (ps.foldl (redirectStep o) g) x).map GNode.children =
        (lookupN g x).map GNode.children := by
  induction ps with
  | nil => intro g x _; rfl
  | cons p rest ih =>
      intro g x hx
      rw [List.foldl_cons, ih _ _ (fun h => hx (List.mem_cons_of_mem p h)),
        redirectStep_children_other o g p x (fun h => hx (h ▸ List.mem_cons_self p rest))]

/-- Folding `redirectStep` over a parent list points the `children`
pointer of every (present) member at the target. -/
theorem redirectFold_children_mem (o : Int) (ps : List Int) :
    ∀ (g : Store) (x : Int), x ∈ ps → (lookupN g x).isSome →
      (lookupN (ps.foldl (redirectStep o) g) x).map GNode.children = some (some o) := by
  induction ps with
  | nil => intro g x hx; exact absurd hx (List.not_mem_nil x)
  | cons p rest ih =>
      intro g x hx hpres
      rw [List.foldl_cons]
      by_cases hr : x ∈ rest
      · exact ih _ x hr (by rw [redirectStep_isSome]; exact hpres)
      · have hxp : x = p := by
          rcases List.mem_cons.mp hx with h | h
          · exact h
          · exact absurd h hr
        subst hxp
        rw [redirectFold_children_outside o rest _ x hr]
        exact redirectStep_children_self o g x hpres

/-- Folding `redirectStep` over a parent list appends the whole list
to the target's `parents`. -/
theorem redirectFold_parents_target (o : Int) (ps : List Int) :
    ∀ (g : Store),
      (lookupN (ps.foldl (redirectStep o) g) o).map GNode.parents =
        (lookupN g o).map (fun n => n.parents ++ ps) := by
  induction ps with
  | nil => intro g; cases hg : lookupN g o <;> simp [hg]
  | cons p rest ih =>
      intro g
      rw [List.foldl_cons, ih]
      have hpt := redirectStep_parents_target o g p
      cases hg : lookupN g o with
      | none =>
          rw [hg] at hpt
          cases hL : lookupN (redirectStep o g p) o with
          | none => rfl
          | some m => rw [hL] at hpt; simp at hpt
      | some n =>
          rw [hg] at hpt
          cases hL : lookupN (redirectStep o g p) o with
          | none => rw [hL] at hpt; simp at hpt
          | some m =>
              rw [hL] at hpt
              simp at hpt
              simp [hpt]

/-- **C8** (confirmed): `redirect` panics (aborts the pipeline) iff the
redirected node's `parents` set is empty; otherwise it succeeds,
repointing every parent's `children` pointer at the target and
appending all the parents, in order, to the target's `parents` set
(`val`, `hash` and `level` of every node are untouched). -/
theorem claim_C8_redirect_spec (g : Store) (t o : Int) (tn : GNode)
    (ht : lookupN g t = some tn)
    (hp : ∀ p ∈ tn.parents, (lookupN g p).isSome) :
    (redirect g t o = none ↔ tn.parents = []) ∧
    (∀ g2, redirect g t o = some g2 →
      (∀ p ∈ tn.parents, (lookupN g2 p).map GNode.children = some (some o)) ∧
      (lookupN g2 o).map GNode.parents = (lookupN g o).map (fun n => n.parents ++ tn.parents) ∧
      (∀ x, (lookupN g2 x).map (fun n => (n.val, n.hash, n.level)) =
        (lookupN g x).map (fun n => (n.val, n.hash, n.level)))) := by
  constructor
  · unfold redirect
    rw [ht]
    by_cases hps : tn.parents = [] <;> simp [hps]
  · intro g2 hg2
    unfold redirect at hg2
    rw [ht] at hg2
    by_cases hps : tn.parents = []
    · simp [hps] at hg2
    · simp only [hps, if_false] at hg2
      obtain rfl : tn.parents.foldl (redirectStep o) g = g2 := by
        simpa using hg2
      exact ⟨fun p hmem => redirectFold_children_mem o tn.parents g p hmem (hp p hmem),
        redirectFold_parents_target o tn.parents g,
        fun x => redirectFold_triple o tn.parents g x⟩

/-- Witness for `claim_C8_redirect_spec`, on the two-node heap
`{1 ↦ parent, 2 ↦ child}`: node 2's parent set `[1]` is non-empty, so
`redirect` does not panic there. -/
theorem claim_C8_witness :
    (redirect gRedirectDemo 2 1 = none ↔ gRedirectChild.parents = []) ∧
    gRedirectChild.parents ≠ [] :=
  ⟨(claim_C8_redirect_spec gRedirectDemo 2 1 gRedirectChild (by decide)
      (by decide)).1, by decide⟩

/-! ## Claim C1 — the merge test of `processLevel` -/

/-- `tripleMatch` only reads `val`, `hash` and `level`. -/
theorem tripleMatch_proj (a a2 b b2 : GNode)
    (ha : (a.val, a.hash, a.level) = (a2.val, a2.hash, a2.level))
    (hb : (b.val, b.hash, b.level) = (b2.val, b2.hash, b2.level)) :
    tripleMatch a b = tripleMatch a2 b2 := by
  unfold tripleMatch
  simp only [Prod.mk.injEq] at ha hb
  rw [ha.1, ha.2.1, ha.2.2, hb.1, hb.2.1, hb.2.2]

/-- A successful scan returns a member of the kept list that matches
the candidate on `val`, `hash` and `level`. -/
theorem scanOthers_sound (g : Store) (fn : GNode) :
    ∀ (os : List Int) (le : Int), scanOthers g fn os = some le →
      le ∈ os ∧ ∃ ln, lookupN g le = some ln ∧ tripleMatch fn ln = true := by
  intro os
  induction os with
  | nil => intro le h; simp [scanOthers] at h
  | cons o rest ih =>
      intro le h
      unfold scanOthers at h
      split at h
      next =>
          obtain ⟨h1, h2⟩ := ih le h
          exact ⟨List.mem_cons_of_mem o h1, h2⟩
      next ln heq =>
          split at h
          next hm =>
            obtain rfl : o = le := by simpa using h
            exact ⟨List.mem_cons_self o rest, ln, heq, hm⟩
          next hm =>
            obtain ⟨h1, h2⟩ := ih le h
            exact ⟨List.mem_cons_of_mem o h1, h2⟩

/-- A failed scan means no kept node matches the candidate. -/
theorem scanOthers_none (g : Store) (fn : GNode) :
    ∀ (os : List Int), scanOthers g fn os = none →
      ∀ o ∈ os, ∀ ln, lookupN g o = some ln → tripleMatch fn ln = false := by
  intro os
  induction os with
  | nil => intro _ o ho; exact absurd ho (List.not_mem_nil o)
  | cons o2 rest ih =>
      intro h o ho ln hln
      unfold scanOthers at h
      split at h
      next heq =>
          rcases List.mem_cons.mp ho with rfl | hr
          · rw [heq] at hln; cases hln
          · exact ih h o hr ln hln
      next ln2 heq =>
          split at h
          next hm => cases h
          next hm =>
            rcases List.mem_cons.mp ho with rfl | hr
            · rw [heq] at hln
              obtain rfl : ln2 = ln := by simpa using hln
              simpa using hm
            · exact ih h o hr ln hln

/-- A successful `redirect` preserves `val`, `hash` and `level` of
every record. -/
theorem redirect_triple (g : Store) (t o : Int) (g2 : Store)
    (h : redirect g t o = some g2) :
    ∀ x, (lookupN g2 x).map (fun n => (n.val, n.hash, n.level)) =
      (lookupN g x).map (fun n => (n.val, n.hash, n.level)) := by
  unfold redirect at h
  split at h
  next => cases h
  next tn heq =>
      split at h
      next => cases h
      next hps =>
          obtain rfl : tn.parents.foldl (redirectStep o) g = g2 := by simpa using h
          exact fun x => redirectFold_triple o tn.parents g x

/-- A successful `redirect` preserves presence of every id. -/
theorem redirect_isSome (g : Store) (t o : Int) (g2 : Store)
    (h : redirect g t o = some g2) :
    ∀ x, (lookupN g2 x).isSome = (lookupN g x).isSome := by
  unfold redirect at h
  split at h
  next => cases h
  next tn heq =>
      split at h
      next => cases h
      next hps =>
          obtain rfl : tn.parents.foldl (redirectStep o) g = g2 := by simpa using h
          exact fun x => redirectFold_isSome o tn.parents g x

/-- The instrumented pass computes the same heap as the plain one. -/
theorem processFirstsT_fst (fs : List Int) :
    ∀ (g : Store) (os : List Int),
      (processFirstsT g fs os).1 = processFirsts g fs os := by
  induction fs with
  | nil => intro g os; rfl
  | cons f rest ih =>
      intro g os
      simp only [processFirstsT, processFirsts]
      cases hf : lookupN g f with
      | none => simp only [hf]; exact ih g os
      | some fn =>
          simp only [hf]
          cases hs : scanOthers g fn os with
          | none => simp only [hs]; exact ih g (os ++ [f])
          | some le =>
              simp only [hs]
              cases hr : redirect g f le with
              | none => simp only [hr]
              | some g2 => simp only [hr]; exact ih g2 os

/-- A successful instrumented pass preserves `val`, `hash` and `level`
of every record. -/
theorem processFirstsT_triple (fs : List Int) :
    ∀ (g : Store) (os : List Int) (g2 : Store) (tr : List (Int × Int)),
      processFirstsT g fs os = (some g2, tr) →
      ∀ x, (lookupN g2 x).map (fun n => (n.val, n.hash, n.level)) =
        (lookupN g x).map (fun n => (n.val, n.hash, n.level)) := by
  induction fs with
  | nil =>
      intro g os g2 tr h x
      simp only [processFirstsT, Prod.mk.injEq, Option.some.injEq] at h
      obtain ⟨rfl, -⟩ := h
      rfl
  | cons f rest ih =>
      intro g os g2 tr h x
      unfold processFirstsT at h
      split at h
      next => exact ih g os g2 tr h x
      next fn heq1 =>
          split at h
          next le heq2 =>
              split at h
              next heq3 => simp at h
              next gr heq3 =>
                  cases hrun : processFirstsT gr rest os with
                  | mk rr tr2 =>
                      rw [hrun] at h
                      simp only [Prod.mk.injEq] at h
                      rw [h.1] at hrun
                      rw [ih gr os g2 tr2 hrun x, redirect_triple g f le gr heq3 x]
          next heq2 => exact ih g (os ++ [f]) g2 tr h x

/-- A successful instrumented pass preserves presence of every id. -/
theorem processFirstsT_isSome (fs : List Int) :
    ∀ (g : Store) (os : List Int) (g2 : Store) (tr : List (Int × Int)),
      processFirstsT g fs os = (some g2, tr) →
      ∀ x, (lookupN g2 x).isSome = (lookupN g x).isSome := by
  induction fs with
  | nil =>
      intro g os g2 tr h x
      simp only [processFirstsT, Prod.mk.injEq, Option.some.injEq] at h
      obtain ⟨rfl, -⟩ := h
      rfl
  | cons f rest ih =>
      intro g os g2 tr h x
      unfold processFirstsT at h
      split at h
      next => exact ih g os g2 tr h x
      next fn heq1 =>
          split at h
          next le heq2 =>
              split at h
              next heq3 => simp at h
              next gr heq3 =>
                  cases hrun : processFirstsT gr rest os with
                  | mk rr tr2 =>
                      rw [hrun] at h
                      simp only [Prod.mk.injEq] at h
                      rw [h.1] at hrun
                      rw [ih gr os g2 tr2 hrun x, redirect_isSome g f le gr heq3 x]
          next heq2 => exact ih g (os ++ [f]) g2 tr h x

/-- Transfer a record lookup across a `val`/`hash`/`level`-preserving
heap transformation. -/
theorem lookup_transfer (g gr : Store)
    (hproj : ∀ x, (lookupN gr x).map (fun n => (n.val, n.hash, n.level)) =
      (lookupN g x).map (fun n => (n.val, n.hash, n.level)))
    (x : Int) (n : GNode) (hx : lookupN g x = some n) :
    ∃ n2, lookupN gr x = some n2 ∧
      (n2.val, n2.hash, n2.level) = (n.val, n.hash, n.level) := by
  have e := hproj x
  rw [hx] at e
  cases hgr : lookupN gr x with
  | none => rw [hgr] at e; cases e
  | some n2 =>
      rw [hgr] at e
      exact ⟨n2, rfl, by simpa using e⟩

/-- Every merge the pass records is between a candidate from `fs` and
a node of the scan lists, and the two agree on `val`, `hash` and
`level` (as read in the starting heap). -/
theorem processFirstsT_trace_sound (fs : List Int) :
    ∀ (g : Store) (os : List Int) (g2 : Store) (tr : List (Int × Int)),
      processFirstsT g fs os = (some g2, tr) →
      ∀ pr ∈ tr, pr.1 ∈ fs ∧ pr.2 ∈ os ++ fs ∧
        ∃ fn ln, lookupN g pr.1 = some fn ∧ lookupN g pr.2 = some ln ∧
          tripleMatch fn ln = true := by
  induction fs with
  | nil =>
      intro g os g2 tr h pr hpr
      simp only [processFirstsT, Prod.mk.injEq, Option.some.injEq] at h
      obtain ⟨-, rfl⟩ := h
      exact absurd hpr (List.not_mem_nil pr)
  | cons f rest ih =>
      intro g os g2 tr h pr hpr
      unfold processFirstsT at h
      split at h
      next =>
          obtain ⟨h1, h2, h3⟩ := ih g os g2 tr h pr hpr
          refine ⟨List.mem_cons_of_mem f h1, ?_, h3⟩
          simp only [List.mem_append, List.mem_cons] at h2 ⊢
          tauto
      next fn heq1 =>
          split at h
          next le heq2 =>
              split at h
              next => simp at h
              next gr heq3 =>
                  cases hrun : processFirstsT gr rest os with
                  | mk rr tr2 =>
                      rw [hrun] at h
                      simp only [Prod.mk.injEq] at h
                      obtain ⟨hrr, htr⟩ := h
                      rw [hrr] at hrun
                      subst htr
                      rcases List.mem_cons.mp hpr with rfl | hmem
                      · obtain ⟨hle, ln, hln, hm⟩ := scanOthers_sound g fn os le heq2
                        exact ⟨List.mem_cons_self f rest,
                          List.mem_append.mpr (Or.inl hle), fn, ln, heq1, hln, hm⟩
                      · obtain ⟨h1, h2, fn2, ln2, hf2, hl2, hm2⟩ :=
                          ih gr os g2 tr2 hrun pr hmem
                        have hproj := redirect_triple g f le gr heq3
                        obtain ⟨fn3, hf3, ef⟩ := lookup_transfer gr g
                          (fun x => (hproj x).symm) pr.1 fn2 hf2
                        obtain ⟨ln3, hl3, el⟩ := lookup_transfer gr g
                          (fun x => (hproj x).symm) pr.2 ln2 hl2
                        refine ⟨List.mem_cons_of_mem f h1, ?_, fn3, ln3, hf3, hl3, ?_⟩
                        · simp only [List.mem_append, List.mem_cons] at h2 ⊢
                          tauto
                        · rw [tripleMatch_proj fn3 fn2 ln3 ln2 ef el]
                          exact hm2
          next heq2 =>
              obtain ⟨h1, h2, h3⟩ := ih g (os ++ [f]) g2 tr h pr hpr
              refine ⟨List.mem_cons_of_mem f h1, ?_, h3⟩
              simp only [List.mem_append, List.mem_cons, List.mem_singleton] at h2 ⊢
              tauto

/-- If the pass succeeds, every candidate that matches some node of
the initial kept list on `val`, `hash` and `level` is merged. -/
theorem processFirstsT_complete (fs : List Int) :
    ∀ (g : Store) (os : List Int) (g2 : Store) (tr : List (Int × Int)),
      processFirstsT g fs os = (some g2, tr) →
      ∀ f ∈ fs, ∀ fn, lookupN g f = some fn →
        (∃ o ∈ os, ∃ ln, lookupN g o = some ln ∧ tripleMatch fn ln = true) →
        ∃ k, (f, k) ∈ tr := by
  induction fs with
  | nil => intro g os g2 tr h f hf; exact absurd hf (List.not_mem_nil f)
  | cons f0 rest ih =>
      intro g os g2 tr h f hf fn hfn hmatch
      unfold processFirstsT at h
      split at h
      next heq1 =>
          rcases List.mem_cons.mp hf with rfl | hr
          · rw [heq1] at hfn; cases hfn
          · exact ih g os g2 tr h f hr fn hfn hmatch
      next fn0 heq1 =>
          split at h
          next le heq2 =>
              split at h
              next => simp at h
              next gr heq3 =>
                  cases hrun : processFirstsT gr rest os with
                  | mk rr tr2 =>
                      rw [hrun] at h
                      simp only [Prod.mk.injEq] at h
                      obtain ⟨hrr, htr⟩ := h
                      rw [hrr] at hrun
                      subst htr
                      rcases List.mem_cons.mp hf with rfl | hr
                      · exact ⟨le, List.mem_cons_self (f, le) tr2⟩
                      · have hproj := redirect_triple g f0 le gr heq3
                        obtain ⟨fn2, hfn2, ef⟩ := lookup_transfer g gr hproj f fn hfn
                        obtain ⟨o, ho, ln, hln, hm⟩ := hmatch
                        obtain ⟨ln2, hln2, el⟩ := lookup_transfer g gr hproj o ln hln
                        have hm2 : tripleMatch fn2 ln2 = true := by
                          rw [tripleMatch_proj fn2 fn ln2 ln ef el]; exact hm
                        obtain ⟨k, hk⟩ := ih gr os g2 tr2 hrun f hr fn2 hfn2
                          ⟨o, ho, ln2, hln2, hm2⟩
                        exact ⟨k, List.mem_cons_of_mem (f0, le) hk⟩
          next heq2 =>
              rcases List.mem_cons.mp hf with rfl | hr
              · obtain ⟨o, ho, ln, hln, hm⟩ := hmatch
                have hfneq : fn0 = fn := by
                  rw [heq1] at hfn; injection hfn
                have hnone := scanOthers_none g fn0 os heq2 o ho ln hln
                rw [hfneq] at hnone
                rw [hnone] at hm
                cases hm
              · refine ih g (os ++ [f0]) g2 tr h f hr fn hfn ?_
                obtain ⟨o, ho, ln, hln, hm⟩ := hmatch
                exact ⟨o, List.mem_append.mpr (Or.inl ho), ln, hln, hm⟩

/-- **C1** (confirmed): in `processLevel`, a first-child candidate is
merged (redirected) into a kept node only if the two nodes agree on
`val`, `contentHash` and `level`; a candidate that agrees with some
kept node on all three is merged into one such node; and in
particular no merge ever occurs between a candidate and a kept node
that agree on `val` and `level` but differ in `contentHash`. -/
theorem claim_C1_merge_iff_triple (g : Store) (level : List Int) (g2 : Store)
    (tr : List (Int × Int))
    (hrun : processFirstsT g
        (level.filter fun i => ((lookupN g i).map GNode.firstchild).getD false)
        (level.filter fun i => !((lookupN g i).map GNode.firstchild).getD false) =
      (some g2, tr)) :
    processLevel g level = some g2 ∧
    (∀ pr ∈ tr,
      pr.1 ∈ (level.filter fun i => ((lookupN g i).map GNode.firstchild).getD false) ∧
      ∃ fn ln, lookupN g pr.1 = some fn ∧ lookupN g pr.2 = some ln ∧
        fn.val = ln.val ∧ fn.hash = ln.hash ∧ fn.level = ln.level) ∧
    (∀ f ∈ (level.filter fun i => ((lookupN g i).map GNode.firstchild).getD false),
      ∀ fn, lookupN g f = some fn →
      (∃ o ∈ (level.filter fun i => !((lookupN g i).map GNode.firstchild).getD false),
        ∃ ln, lookupN g o = some ln ∧
          fn.val = ln.val ∧ fn.hash = ln.hash ∧ fn.level = ln.level) →
      ∃ k, (f, k) ∈ tr) ∧
    (∀ f k fn kn, lookupN g f = some fn → lookupN g k = some kn →
      fn.val = kn.val → fn.level = kn.level → fn.hash ≠ kn.hash → (f, k) ∉ tr) := by
  refine ⟨?_, ?_, ?_, ?_⟩
  · have := processFirstsT_fst
      (level.filter fun i => ((lookupN g i).map GNode.firstchild).getD false) g
      (level.filter fun i => !((lookupN g i).map GNode.firstchild).getD false)
    rw [hrun] at this
    exact this.symm
  · intro pr hpr
    obtain ⟨h1, -, fn, ln, hf, hl, hm⟩ := processFirstsT_trace_sound _ _ _ _ _ hrun pr hpr
    simp only [tripleMatch, Bool.and_eq_true, decide_eq_true_eq] at hm
    exact ⟨h1, fn, ln, hf, hl, hm.1.1, hm.1.2, hm.2⟩
  · intro f hf fn hfn hmatch
    refine processFirstsT_complete _ _ _ _ _ hrun f hf fn hfn ?_
    obtain ⟨o, ho, ln, hln, e1, e2, e3⟩ := hmatch
    exact ⟨o, ho, ln, hln, by simp [tripleMatch, e1, e2, e3]⟩
  · intro f k fn kn hfn hkn hv hl hh hmem
    obtain ⟨-, -, fn2, kn2, hf2, hk2, hm⟩ :=
      processFirstsT_trace_sound _ _ _ _ _ hrun (f, k) hmem
    simp only [tripleMatch, Bool.and_eq_true, decide_eq_true_eq] at hm
    rw [hfn] at hf2
    rw [hkn] at hk2
    obtain rfl : fn = fn2 := by injection hf2
    obtain rfl : kn = kn2 := by injection hk2
    exact hh hm.1.2

/-- Witness for `claim_C1_merge_iff_triple`: on `gC1demo`, candidate
10 merges into kept node 20 and `processLevel` returns the heap the
instrumented pass computed. -/
theorem claim_C1_witness :
    processFirstsT gC1demo
        ([10, 20].filter fun i => ((lookupN gC1demo i).map GNode.firstchild).getD false)
        ([10, 20].filter fun i => !((lookupN gC1demo i).map GNode.firstchild).getD false) =
      (some gC1res, [(10, 20)]) ∧
    processLevel gC1demo [10, 20] = some gC1res :=
  ⟨by decide, (claim_C1_merge_iff_triple gC1demo [10, 20] gC1res [(10, 20)] (by decide)).1⟩

/-! ## Claim C5 — determinism of the minimization pass

The merge loop enumerates each height class with
`for key := range nodesOfHeightX` over a Go `map`, whose iteration
order is randomized per run.  The embedding makes that order an
explicit oracle: two runs with the same oracle coincide (the pass has
no other nondeterminism), but two legitimate enumeration orders of
the same sets can scan candidates differently, perform different
merges, and produce different graphs. -/

/-- **C5** (counterexample): on the trie for `{"ca","cb","da","db"}`,
enumerating each height class in first-insertion order merges the `a`
below `d` into the `a` below `c`, while enumerating in reversed order
merges the `a` below `c` into the `a` below `d` — two runs on
identically built tries that produce different graphs, refuting the
claimed run-to-run determinism. -/
theorem claim_C5_order_dependent :
    OptimiseModel 20 ordId trieCD ≠ OptimiseModel 20 ordRev trieCD := by decide

/-- **C5** (amended): the minimization pass is deterministic only
relative to the set-enumeration order — for a fixed trie and two
oracles that enumerate every height class identically, the two runs
scan candidates in the same order, perform the same merges, and
produce identical graphs; across runs the Go map order may differ and
the result with it. -/
theorem claim_C5_amended_order_relative (t : TN) (fuel : Nat)
    (ord1 ord2 : Int → List Int → List Int)
    (h : ∀ j l, ord1 j l = ord2 j l) :
    OptimiseModel fuel ord1 t = OptimiseModel fuel ord2 t := by
  have he : ord1 = ord2 := funext fun j => funext fun l => h j l
  rw [he]

/-- Witness for `claim_C5_amended_order_relative`: the first-insertion
oracle and the reverse-twice oracle enumerate identically, so the
minimized heaps coincide. -/
theorem claim_C5_witness :
    (∀ (j : Int) (l : List Int), ordId j l = ordRevRev j l) ∧
    OptimiseModel 20 ordId trieCD = OptimiseModel 20 ordRevRev trieCD :=
  ⟨fun _ l => (List.reverse_reverse l).symm,
    claim_C5_amended_order_relative trieCD 20 ordId ordRevRev
      (fun _ l => (List.reverse_reverse l).symm)⟩

/-! ## Claim C6 — one slot per node during flattening -/

/-- `chainFold` preserves any invariant its step preserves. -/
theorem chainFold_preserve {α : Type} (g : Store) (P : α → Prop)
    (step : Int → α → α) (hstep : ∀ c a, P a → P (step c a)) :
    ∀ (fuel : Nat) (oc : Option Int) (a : α), P a → P (chainFold g step fuel oc a) := by
  intro fuel
  induction fuel with
  | zero => intro oc a h; exact h
  | succ n ih =>
      intro oc a h
      cases oc with
      | none => exact h
      | some c => exact ih _ _ (hstep c a h)

/-- Patching parents' `children` indices never changes the array
length. -/
theorem patchParents_length (parents : List Int) (an : List Int)
    (up : List (Int × Nat)) (slot : Nat) :
    ∀ out : List ANode, (patchParents parents an up slot out).length = out.length := by
  induction parents with
  | nil => intro out; rfl
  | cons p rest ih =>
      intro out
      unfold patchParents at ih ⊢
      rw [List.foldl_cons]
      rw [ih]
      by_cases hp : p ∈ an <;> simp [hp]

/-- The flattening allocation invariant: allocated ids are pairwise
distinct, the `unfilledParents` map lists exactly the allocated ids in
slot order, and the array holds one record per allocated id. -/
def flatInv (st : FlatState) : Prop :=
  st.an.Nodup ∧ st.up.map Prod.fst = st.an ∧ st.output.length = st.an.length

/-- `addNodesOfLevelX` preserves the allocation invariant: a node is
appended only under the `allocatedNodes` guard, and patching touches
no lengths. -/
theorem addNodesOfLevelX_inv (fuel : Nat) :
    ∀ (g : Store) (tid level : Int) (st : FlatState),
      flatInv st → flatInv (addNodesOfLevelX fuel g tid level st) := by
  induction fuel with
  | zero => intro g tid level st h; exact h
  | succ n ih =>
      intro g tid level st h
      unfold addNodesOfLevelX
      split
      next => exact h
      next t heq =>
          split
          next hlev =>
              split
              next => exact h
              next hin =>
                  obtain ⟨h1, h2, h3⟩ := h
                  refine ⟨?_, ?_, ?_⟩
                  · simpa [List.nodup_append] using ⟨h1, fun hmem => hin hmem⟩
                  · simp [h2]
                  · simp [patchParents_length, h3]
          next hlev =>
              split
              next => exact h
              next cid =>
                  split
                  next => exact h
                  next cn heq2 =>
                      split
                      next hfc =>
                          exact chainFold_preserve g flatInv _
                            (fun c a ha => ih g c level a ha) _ _ st h
                      next => exact h

/-- The level loop preserves the allocation invariant. -/
theorem flattenLoop_inv (fl : Nat) :
    ∀ (cf : Nat) (g : Store) (root i : Int) (st : FlatState),
      flatInv st → flatInv (flattenLoop fl cf g root i st) := by
  induction fl with
  | zero => intro cf g root i st h; exact h
  | succ n ih =>
      intro cf g root i st h
      unfold flattenLoop
      have h2 := addNodesOfLevelX_inv cf g root i st h
      by_cases hlen : (addNodesOfLevelX cf g root i st).output.length = st.output.length
      · simp [hlen, h2]
      · simp only [hlen, if_neg, ite_false]
        exact ih cf g root (i + 1) _ h2

/-- **C6** (confirmed): across the whole flattening pass, no node is
ever appended twice — the allocated-id list is duplicate-free, slots
and allocated nodes are in bijection (`up` lists exactly the allocated
ids in slot order, one array record per id) — and on the minimized
`{"ca","cb","da","db"}` heap the shared `a` node, although it has two
parents after the merge, receives exactly one slot. -/
theorem claim_C6_flatten_one_slot (fl cf : Nat) (g : Store) (root : Int) :
    ((FlattenModel fl cf g root).an.Nodup ∧
      (FlattenModel fl cf g root).up.map Prod.fst = (FlattenModel fl cf g root).an ∧
      (FlattenModel fl cf g root).output.length = (FlattenModel fl cf g root).an.length) ∧
    (((lookupN mergedCD 1).map (fun n => n.parents.length)).getD 0 = 2 ∧
      (FlattenModel 8 30 mergedCD (-1)).an.count 1 = 1 ∧
      (FlattenModel 8 30 mergedCD (-1)).an = [-1, 0, 3, 1, 2]) := by
  refine ⟨flattenLoop_inv fl cf g root 0 _ ⟨List.nodup_nil, rfl, rfl⟩, by decide, by decide⟩

/-! ## Claim C4 — the sentinel root's record value

`NewDAWG` deliberately gives the root the value `'∅'` (U+2205, code
point 8709), and the flattener copies `t.val` verbatim into the
record, so the root record's `value` field is 8709, not 0. -/

/-- `Put`ting any word list on a node with no sibling preserves every
head field. -/
theorem buildFold_root_shape (ws : List (List Rune)) :
    ∀ (i : Int) (v : Rune) (eo fc : Bool) (lv h : Int) (hs : List Nat)
      (ps : List Int) (ch : TN) (id : Int),
      ∃ ch2 id2,
        ws.foldl (fun r w => TN.Put w r.1 r.2) (.node i v eo fc lv h hs ps ch .nil, id) =
          (.node i v eo fc lv h hs ps ch2 .nil, id2) := by
  induction ws with
  | nil => intro i v eo fc lv h hs ps ch id; exact ⟨ch, id, rfl⟩
  | cons w rest ih =>
      intro i v eo fc lv h hs ps ch id
      rw [List.foldl_cons]
      obtain ⟨ch2, id2, hput⟩ := Put_node_shape w i v eo fc lv h hs ps ch .nil id
      rw [hput]
      exact ih i v eo fc lv h hs ps ch2 id2

/-- `computeHeights` on a node rewrites only `height` and the children
chain. -/
theorem computeHeights_node_shape (i : Int) (v : Rune) (eo fc : Bool) (lv h : Int)
    (hs : List Nat) (ps : List Int) (ch nx : TN) :
    ∃ h2 ch2, TN.computeHeights (.node i v eo fc lv h hs ps ch nx) =
      .node i v eo fc lv h2 hs ps ch2 nx := by
  cases ch with
  | nil => exact ⟨_, _, rfl⟩
  | node _ _ _ _ _ _ _ _ _ _ => exact ⟨_, _, rfl⟩

/-- `computeHashes` on a node with no sibling rewrites only `hash` and
the children chain. -/
theorem computeHashes_node_shape (i : Int) (v : Rune) (eo fc : Bool) (lv h : Int)
    (hs : List Nat) (ps : List Int) (ch : TN) :
    ∃ hs2 ch2 d, TN.computeHashes (.node i v eo fc lv h hs ps ch .nil) =
      (.node i v eo fc lv h hs2 ps ch2 .nil, d) :=
  ⟨_, _, _, rfl⟩

/-- Annotation keeps the root's head fields and sets its level to 0. -/
theorem annotate_root_shape (i : Int) (v : Rune) (eo fc : Bool) (lv h : Int)
    (hs : List Nat) (ps : List Int) (ch : TN) :
    ∃ h2 hs2 ch2, TN.annotate (.node i v eo fc lv h hs ps ch .nil) =
      .node i v eo fc 0 h2 hs2 ps ch2 .nil := by
  unfold TN.annotate
  have hlv : TN.computeLevels (.node i v eo fc lv h hs ps ch .nil) 0 =
      .node i v eo fc 0 h hs ps (TN.computeLevelsChain ch (0 + 1)) .nil := rfl
  rw [hlv]
  obtain ⟨h2, ch2, hh⟩ := computeHeights_node_shape i v eo fc 0 h hs ps
    (TN.computeLevelsChain ch (0 + 1)) .nil
  rw [hh]
  obtain ⟨hs2, ch3, d, hhash⟩ := computeHashes_node_shape i v eo fc 0 h2 hs ps ch2
  rw [hhash]
  exact ⟨h2, hs2, ch3, rfl⟩

/-- The record `toNodes` produces for the tree's own root is found
first by a lookup of the root's id. -/
theorem toNodes_root_lookup (i : Int) (v : Rune) (eo fc : Bool) (lv h : Int)
    (hs : List Nat) (ps : List Int) (ch nx : TN) :
    lookupN (TN.toNodes (.node i v eo fc lv h hs ps ch nx)) i =
      some { id := i, val := v, endofword := eo, firstchild := fc, level := lv,
             height := h, hash := hs, parents := ps,
             children := ch.headId, next := nx.headId } := by
  simp [TN.toNodes, lookupN]

/-- A successful `processLevel` preserves `val`, `hash` and `level` of
every record. -/
theorem processLevel_triple (g : Store) (level : List Int) (g2 : Store)
    (h : processLevel g level = some g2) :
    ∀ x, (lookupN g2 x).map (fun n => (n.val, n.hash, n.level)) =
      (lookupN g x).map (fun n => (n.val, n.hash, n.level)) := by
  intro x
  unfold processLevel at h
  have hfst := processFirstsT_fst
    (level.filter fun i => ((lookupN g i).map GNode.firstchild).getD false) g
    (level.filter fun i => !((lookupN g i).map GNode.firstchild).getD false)
  cases hrun : processFirstsT g
      (level.filter fun i => ((lookupN g i).map GNode.firstchild).getD false)
      (level.filter fun i => !((lookupN g i).map GNode.firstchild).getD false) with
  | mk rr tr =>
      rw [hrun] at hfst
      rw [← hfst] at h
      have hrr : rr = some g2 := h
      rw [hrr] at hrun
      exact processFirstsT_triple _ _ _ _ _ hrun x

/-- A successful `processLevel` preserves presence of every id. -/
theorem processLevel_isSome (g : Store) (level : List Int) (g2 : Store)
    (h : processLevel g level = some g2) :
    ∀ x, (lookupN g2 x).isSome = (lookupN g x).isSome := by
  intro x
  unfold processLevel at h
  have hfst := processFirstsT_fst
    (level.filter fun i => ((lookupN g i).map GNode.firstchild).getD false) g
    (level.filter fun i => !((lookupN g i).map GNode.firstchild).getD false)
  cases hrun : processFirstsT g
      (level.filter fun i => ((lookupN g i).map GNode.firstchild).getD false)
      (level.filter fun i => !((lookupN g i).map GNode.firstchild).getD false) with
  | mk rr tr =>
      rw [hrun] at hfst
      rw [← hfst] at h
      have hrr : rr = some g2 := h
      rw [hrr] at hrun
      exact processFirstsT_isSome _ _ _ _ _ hrun x

/-- The merge loop preserves `val`, `hash` and `level` of every
record. -/
theorem mergeSteps_triple (js : List Int) :
    ∀ (fuel : Nat) (ord : Int → List Int → List Int) (rootId : Int) (g g2 : Store),
      mergeSteps fuel ord rootId g js = some g2 →
      ∀ x, (lookupN g2 x).map (fun n => (n.val, n.hash, n.level)) =
        (lookupN g x).map (fun n => (n.val, n.hash, n.level)) := by
  induction js with
  | nil =>
      intro fuel ord rootId g g2 h x
      obtain rfl : g = g2 := by simpa [mergeSteps] using h
      rfl
  | cons j rest ih =>
      intro fuel ord rootId g g2 h x
      unfold mergeSteps at h
      split at h
      next => cases h
      next gm heqp =>
          rw [ih fuel ord rootId gm g2 h x, processLevel_triple g _ gm heqp x]

/-- The merge loop preserves presence of every id. -/
theorem mergeSteps_isSome (js : List Int) :
    ∀ (fuel : Nat) (ord : Int → List Int → List Int) (rootId : Int) (g g2 : Store),
      mergeSteps fuel ord rootId g js = some g2 →
      ∀ x, (lookupN g2 x).isSome = (lookupN g x).isSome := by
  induction js with
  | nil =>
      intro fuel ord rootId g g2 h x
      obtain rfl : g = g2 := by simpa [mergeSteps] using h
      rfl
  | cons j rest ih =>
      intro fuel ord rootId g g2 h x
      unfold mergeSteps at h
      split at h
      next => cases h
      next gm heqp =>
          rw [ih fuel ord rootId gm g2 h x, processLevel_isSome g _ gm heqp x]

/-- Patching parents' `children` indices never changes a record's
`val`. -/
theorem patchParents_val (parents : List Int) (an : List Int)
    (up : List (Int × Nat)) (slot : Nat) :
    ∀ (out : List ANode) (k : Nat),
      ((patchParents parents an up slot out)[k]?).map ANode.val =
        (out[k]?).map ANode.val := by
  induction parents with
  | nil => intro out k; rfl
  | cons p rest ih =>
      intro out k
      unfold patchParents at ih ⊢
      rw [List.foldl_cons]
      by_cases hp : p ∈ an
      · simp only [hp, if_pos]
        rw [ih]
        by_cases hk : upGet up p = k
        · subst hk
          cases hi : out[upGet up p]? with
          | none =>
              rw [List.set_eq_of_length_le (by simpa using hi)]
              rw [hi]
          | some r =>
              have hlen : upGet up p < out.length := by
                by_contra hge
                rw [List.getElem?_eq_none (by omega)] at hi
                cases hi
              rw [List.getElem?_set_self hlen]
              simp
        · rw [List.getElem?_set_ne hk]
      · simp only [hp, if_neg, ite_false]
        exact ih out k

/-- `addNodesOfLevelX` never changes the `val` of an already emitted
record. -/
theorem addNodesOfLevelX_val (fuel : Nat) :
    ∀ (g : Store) (tid level : Int) (st : FlatState) (k : Nat) (v0 : Rune),
      (st.output[k]?).map ANode.val = some v0 →
      ((addNodesOfLevelX fuel g tid level st).output[k]?).map ANode.val = some v0 := by
  induction fuel with
  | zero => intro g tid level st k v0 h; exact h
  | succ n ih =>
      intro g tid level st k v0 h
      unfold addNodesOfLevelX
      split
      next => exact h
      next t heq =>
          split
          next hlev =>
              split
              next => exact h
              next hin =>
                  have hk : k < st.output.length := by
                    by_contra hge
                    rw [List.getElem?_eq_none (by omega)] at h
                    cases h
                  simp only
                  rw [patchParents_val]
                  rw [List.getElem?_append, if_pos hk]
                  exact h
          next hlev =>
              split
              next => exact h
              next cid =>
                  split
                  next => exact h
                  next cn heq2 =>
                      split
                      next hfc =>
                          exact chainFold_preserve g
                            (fun st2 => (st2.output[k]?).map ANode.val = some v0) _
                            (fun c a ha => ih g c level a k v0 ha) _ _ st h
                      next => exact h

/-- The level loop never changes the `val` of an already emitted
record. -/
theorem flattenLoop_val (fl : Nat) :
    ∀ (cf : Nat) (g : Store) (root i : Int) (st : FlatState) (k : Nat) (v0 : Rune),
      (st.output[k]?).map ANode.val = some v0 →
      ((flattenLoop fl cf g root i st).output[k]?).map ANode.val = some v0 := by
  induction fl with
  | zero => intro cf g root i st k v0 h; exact h
  | succ n ih =>
      intro cf g root i st k v0 h
      unfold flattenLoop
      have h2 := addNodesOfLevelX_val cf g root i st k v0 h
      by_cases hlen : (addNodesOfLevelX cf g root i st).output.length = st.output.length
      · simp [hlen, h2]
      · simp only [hlen, if_neg, ite_false]
        exact ih cf g root (i + 1) _ k v0 h2

/-- **C4** (counterexample): running the full pipeline on the empty
vocabulary produces a one-record array whose sentinel-root record has
`value = 8709` (`'∅'`, the value `NewDAWG` assigns), not 0 as
claimed. -/
theorem claim_C4_root_value_not_zero :
    (OptimiseModel 10 ordId TN.NewDAWG).isSome = true ∧
    emptyDawgOut = [{ val := 8709, children := 0, eol := true }] ∧
    (emptyDawgOut.headD { val := 0, children := 0, eol := false }).val ≠ 0 := by
  refine ⟨by decide, by decide, by decide⟩

/-- **C4** (amended): in the encoded/flattened array the sentinel
root's record — always slot 0 — has a `value` field equal to `'∅'`
(U+2205, 8709), the sentinel value `NewDAWG` assigns, for every
vocabulary and enumeration order for which the merge loop succeeds. -/
theorem claim_C4_amended_root_record (ws : List (List Rune)) (fuel fl cf : Nat)
    (ord : Int → List Int → List Int) (g : Store)
    (h : OptimiseModel fuel ord (buildTrie ws).1 = some g) :
    ((FlattenModel (fl + 1) (cf + 1) g (-1)).output.head?).map ANode.val = some 8709 := by
  obtain ⟨ch, id2, hbuild⟩ := buildFold_root_shape ws (-1) 8709 false false (-1) 0
    zeroHash [] .nil 0
  have hb1 : (buildTrie ws).1 = .node (-1) 8709 false false (-1) 0 zeroHash [] ch .nil := by
    unfold buildTrie
    rw [show TN.NewDAWG = TN.node (-1) 8709 false false (-1) 0 zeroHash [] .nil .nil from rfl]
    rw [hbuild]
  obtain ⟨h2, hs2, ch2, hann⟩ := annotate_root_shape (-1) 8709 false false (-1) 0
    zeroHash [] ch
  unfold OptimiseModel at h
  rw [hb1, hann] at h
  have hroot := toNodes_root_lookup (-1) 8709 false false 0 h2 hs2 [] ch2 .nil
  have hproj := mergeSteps_triple _ _ _ _ _ _ h
  obtain ⟨n, hn, hnval⟩ := lookup_transfer _ g hproj (-1) _ hroot
  have hval : n.val = 8709 := by
    have := congrArg Prod.fst hnval
    simpa using this
  have hlevel : n.level = 0 := by
    have := congrArg (fun q => q.2.2) hnval
    simpa using this
  have hst1 : ((addNodesOfLevelX (cf + 1) g (-1) 0
      { output := [], up := [], an := [] }).output[0]?).map ANode.val = some 8709 := by
    unfold addNodesOfLevelX
    split
    next heqx => rw [hn] at heqx; cases heqx
    next t heqx =>
        rw [hn] at heqx
        obtain rfl : n = t := by injection heqx
        rw [if_pos hlevel]
        have hnotmem : (-1 : Int) ∉ ({ output := [], up := [], an := [] } : FlatState).an :=
          List.not_mem_nil (-1)
        rw [if_neg hnotmem]
        rw [patchParents_val]
        simp [hval]
  unfold FlattenModel
  unfold flattenLoop
  by_cases hlen : (addNodesOfLevelX (cf + 1) g (-1) 0
      { output := [], up := [], an := [] }).output.length =
      ({ output := [], up := [], an := [] } : FlatState).output.length
  · simp only [hlen, if_pos rfl]
    rw [List.head?_eq_getElem?]
    exact hst1
  · simp only [hlen, ite_false, if_neg]
    rw [List.head?_eq_getElem?]
    exact flattenLoop_val fl (cf + 1) g (-1) 1 _ 0 8709 hst1

/-- Witness for `claim_C4_amended_root_record`: the pipeline on the
one-word vocabulary `{"a"}` succeeds and its slot-0 record holds
8709. -/
theorem claim_C4_witness :
    OptimiseModel 10 ordId (buildTrie [[97]]).1 = some oneWordStore ∧
    ((FlattenModel 5 11 oneWordStore (-1)).output.head?).map ANode.val = some 8709 :=
  ⟨by decide, claim_C4_amended_root_record [[97]] 10 4 10 ordId oneWordStore (by decide)⟩

end Wordgraph6
